import Mathlib

/-!
Verification of the helmlint branch-coverage engine (package helmlint).

Strings from the Go source are modelled as lists of characters; each Go
function used by the claims is translated into a computable Lean
definition of the same name. Lines are `List Str`; a file tree is a list
of (relative path, content) pairs walked in list order; the uuid
generator is an abstract supply `ids : Nat → Str` consumed in sequence;
the helm renderer and the conftest policy engine are external processes
and appear as oracle parameters.
-/

namespace Helmlint

abbrev Str := List Char

/-- unicode.IsSpace, as used by strings.TrimSpace: the Unicode
White_Space property (U+0009..U+000D, U+0020, U+0085, U+00A0, U+1680,
U+2000..U+200A, U+2028, U+2029, U+202F, U+205F, U+3000). -/
def isUnicodeSpace (c : Char) : Bool :=
  c = ' ' || c = '\t' || c = '\n' || (c.toNat = 0x0b) || (c.toNat = 0x0c) ||
  c = '\r' || (c.toNat = 0x85) || (c.toNat = 0xa0) || (c.toNat = 0x1680) ||
  (0x2000 ≤ c.toNat && c.toNat ≤ 0x200a) || (c.toNat = 0x2028) ||
  (c.toNat = 0x2029) || (c.toNat = 0x202f) || (c.toNat = 0x205f) ||
  (c.toNat = 0x3000)

/-- strings.TrimSpace: drop Unicode white space from both ends. -/
def trimSpace (s : Str) : Str :=
  ((s.dropWhile isUnicodeSpace).reverse.dropWhile isUnicodeSpace).reverse

/-- len(s) - len(strings.TrimLeft(s, " ")): the leading-space count of a
line (every trimmed leading space is one byte). -/
def leadingSpaces (s : Str) : Nat :=
  (s.takeWhile (fun c => c = ' ')).length

/-- strings.HasSuffix(strings.TrimSpace(s), "|"): the line opens a block
scalar. -/
def pipeLine (s : Str) : Bool :=
  List.isSuffixOf ['|'] (trimSpace s)

/-- The backward scan inside findIndentation: from index i down to 0,
return the leading-space count of the nearest line whose trimmed content
ends with "|", if any. -/
def scanBack (lines : List Str) : Nat → Option Nat
  | 0 =>
    if pipeLine (lines.getD 0 []) then some (leadingSpaces (lines.getD 0 []))
    else none
  | j + 1 =>
    if pipeLine (lines.getD (j + 1) []) then
      some (leadingSpaces (lines.getD (j + 1) []))
    else scanBack lines j

/-- func findIndentation(lines []string, start int) int -/
def findIndentation (lines : List Str) (start : Nat) : Nat :=
  match scanBack lines start with
  | some n => n + 2
  | none => leadingSpaces (lines.getD start [])

/-- The last non-whitespace character of a line, if any (proof device for
reasoning about pipeLine). -/
def lastNonWs (s : Str) : Option Char :=
  (s.reverse.dropWhile isUnicodeSpace).head?

/-- The \s character class of the RE2 regexp engine: [\t\n\f\r ]. -/
def isReSpace (c : Char) : Bool :=
  c = '\t' || c = '\n' || (c.toNat = 0x0c) || c = '\r' || c = ' '

/-- Consume the optional dash of the conditional regexp. -/
def stripDash (s : Str) : Str :=
  match s with
  | c :: r => if c = '-' then r else s
  | [] => []

/-- Whether the text starts with the literal characters i and f. -/
def startsIf (s : Str) : Bool :=
  match s with
  | a :: b :: _ => a = 'i' && b = 'f'
  | _ => false

/-- After the literal braces of the conditional regexp: an optional dash,
then \s*, then the literal characters i and f. -/
def matchIfAfterBraces (cs : Str) : Bool :=
  startsIf ((stripDash cs).dropWhile isReSpace)

/-- Whether the conditional opening-tag pattern matches at the head of
the text. -/
def ifTagAt (s : Str) : Bool :=
  match s with
  | '{' :: '{' :: rest => matchIfAfterBraces rest
  | _ => false

/-- Whether the conditional opening-tag pattern matches anywhere. -/
def hasIfTag : Str → Bool
  | [] => false
  | c :: rest => ifTagAt (c :: rest) || hasIfTag rest

/-- conditionalRegex.MatchString, for the pattern written in the source
as open-brace open-brace, optional dash, then \s*, then the literal
characters i and f. -/
def conditionalRegexMatches (s : Str) : Bool := hasIfTag s

/-- Go strings.Contains(s, sub). -/
def containsSub (sub : Str) : Str → Bool
  | [] => sub.isEmpty
  | c :: rest => List.isPrefixOf sub (c :: rest) || containsSub sub rest

/-- The suppression marker text. -/
def ignoreMarker : Str := "helmlint:ignore".toList

/-- The marker comment prefix written before every injected token. -/
def markerPrefixStr : Str := "# helmlint: ".toList

/-- The loop guard of injectComments: line i matches the conditional
regexp, does not contain the suppression marker, and (when i > 0) the
previous line does not contain the suppression marker. -/
def declGuard (lines : List Str) : Nat → Bool
  | 0 =>
    conditionalRegexMatches (lines.getD 0 []) &&
    !containsSub ignoreMarker (lines.getD 0 [])
  | i + 1 =>
    conditionalRegexMatches (lines.getD (i + 1) []) &&
    !containsSub ignoreMarker (lines.getD (i + 1) []) &&
    !containsSub ignoreMarker (lines.getD i [])

/-- The marker comment line: indentation, then the marker prefix, then
the token. -/
def mkMarkerLine (indent : Nat) (id : Str) : Str :=
  List.replicate indent ' ' ++ markerPrefixStr ++ id

/-- type conditionalDeclRef struct -/
structure DeclRef where
  file : Str
  line : Nat
  expr : Str
deriving DecidableEq, Repr

/-- strings.Split(s, "\n"). -/
def splitNl : Str → List Str
  | [] => [[]]
  | c :: rest =>
    if c = '\n' then [] :: splitNl rest
    else
      match splitNl rest with
      | l :: ls => (c :: l) :: ls
      | [] => [[c]]

/-- strings.Join(lines, "\n"). -/
def joinNl : List Str → Str
  | [] => []
  | [x] => x
  | x :: y :: rest => x ++ '\n' :: joinNl (y :: rest)

/-- The per-file loop of injectComments over the remaining line indices,
carried out on the evolving line array exactly as in the source: on a
detected index the registry gains one entry and the line is rewritten to
"line, newline, indentation, marker comment". Returns the final lines,
the registry entries in detection order, and the next token counter. -/
def injectLinesAux (file : Str) (ids : Nat → Str) :
    List Str → Nat → List Nat → List Str × List (Str × DeclRef) × Nat
  | lines, ctr, [] => (lines, [], ctr)
  | lines, ctr, i :: rest =>
    if declGuard lines i then
      let id := ids ctr
      let indentation := findIndentation lines i
      let newLine := lines.getD i [] ++ '\n' :: mkMarkerLine indentation id
      let out := injectLinesAux file ids (lines.set i newLine) (ctr + 1) rest
      (out.1, (id, ⟨file, i, trimSpace (lines.getD i [])⟩) :: out.2.1, out.2.2)
    else
      injectLinesAux file ids lines ctr rest

/-- The full per-file pass of injectComments over the split lines. -/
def injectFileLines (file : Str) (ids : Nat → Str) (ctr : Nat)
    (lines : List Str) : List Str × List (Str × DeclRef) × Nat :=
  injectLinesAux file ids lines ctr (List.range lines.length)

/-- Per-file injectComments on raw content: split, walk, rejoin. -/
def injectFileContent (file : Str) (ids : Nat → Str) (ctr : Nat)
    (content : Str) : Str × List (Str × DeclRef) × Nat :=
  let out := injectFileLines file ids ctr (splitNl content)
  (joinNl out.1, out.2.1, out.2.2)

/-- The walk filter of injectComments and discoverComments:
strings.HasSuffix(info.Name(), ".yaml") (the extension cannot span a path
separator, so testing the relative path is equivalent). -/
def isYamlName (p : Str) : Bool :=
  List.isSuffixOf ".yaml".toList p

/-- The walk of injectComments over a tree of (relative path, content)
pairs, threading the token counter through the yaml files in walk
order. -/
def injectTreeAux (ids : Nat → Str) :
    Nat → List (Str × Str) → List (Str × Str) × List (Str × DeclRef) × Nat
  | ctr, [] => ([], [], ctr)
  | ctr, (p, content) :: rest =>
    if isYamlName p then
      let out := injectFileContent p ids ctr content
      let outRest := injectTreeAux ids out.2.2 rest
      ((p, out.1) :: outRest.1, out.2.1 ++ outRest.2.1, outRest.2.2)
    else
      let outRest := injectTreeAux ids ctr rest
      ((p, content) :: outRest.1, outRest.2.1, outRest.2.2)

/-- func injectComments(dir string, grp *errgroup.Group): rewrites every
yaml file of the tree and returns the declaration registry. -/
def injectComments (ids : Nat → Str) (tree : List (Str × Str)) :
    List (Str × Str) × List (Str × DeclRef) :=
  let out := injectTreeAux ids 0 tree
  (out.1, out.2.1)

/-- Specification-side description of one instrumented file (written
from the spec wording, to be compared with the implementation): every
line is kept in original order, and each detected declaration is
immediately followed by one marker line carrying the next token. -/
def expectedOut (orig : List Str) (ids : Nat → Str) :
    List Nat → Nat → List Str
  | [], _ => []
  | j :: rest, c =>
    if declGuard orig j then
      orig.getD j [] ::
        mkMarkerLine (findIndentation orig j) (ids c) ::
        expectedOut orig ids rest (c + 1)
    else
      orig.getD j [] :: expectedOut orig ids rest c

/-- Specification-side description of the registry entries produced for
the detected indices of one file. -/
def expectedRegs (file : Str) (ids : Nat → Str) (orig : List Str) :
    List Nat → Nat → List (Str × DeclRef)
  | [], _ => []
  | i :: rest, c =>
    (ids c, ⟨file, i, trimSpace (orig.getD i [])⟩) ::
      expectedRegs file ids orig rest (c + 1)

/-- The detected indices of one file's lines. -/
def detectedIdxs (orig : List Str) : List Nat :=
  (List.range orig.length).filter (fun i => declGuard orig i)

/-- Total number of declarations detected over the yaml files of a
tree. -/
def totalDecls : List (Str × Str) → Nat
  | [] => 0
  | (p, content) :: rest =>
    (if isYamlName p then (detectedIdxs (splitNl content)).length else 0) +
      totalDecls rest

/-- Specification-side description of the whole-tree registry: the
per-file expected registries of the yaml files, concatenated in walk
order with the token counter threaded through. -/
def expectedTreeRegs (ids : Nat → Str) :
    Nat → List (Str × Str) → List (Str × DeclRef) × Nat
  | c, [] => ([], c)
  | c, (p, content) :: rest =>
    if isYamlName p then
      let orig := splitNl content
      let ds := detectedIdxs orig
      let outRest := expectedTreeRegs ids (c + ds.length) rest
      (expectedRegs p ids orig ds c ++ outRest.1, outRest.2)
    else expectedTreeRegs ids c rest

/-- Nat.repr, the %d formatting of a non-negative int. -/
def natToStr (n : Nat) : Str := (Nat.repr n).toList

/-- The failure text of verifyCoverage, from the format string
"Branch was not found in the rendered chart output:" newline two spaces
"(file:line): expr". -/
def coverageFailureMsg (d : DeclRef) : Str :=
  "Branch was not found in the rendered chart output:\n  (".toList ++
    d.file ++ ':' :: natToStr d.line ++ "): ".toList ++ d.expr

/-- func verifyCoverage: one failure per registry entry whose id is not
in the surviving set. -/
def verifyCoverage : List (Str × DeclRef) → List Str → List Str
  | [], _ => []
  | (id, d) :: rest, seen =>
    if seen.contains id then verifyCoverage rest seen
    else coverageFailureMsg d :: verifyCoverage rest seen

/-- The registry entries whose token is absent from the surviving set
(the grouping loop of injectExceptions before the per-file pass). -/
def uncovered (ids : List (Str × DeclRef)) (seen : List Str) : List DeclRef :=
  (ids.filter (fun p => !(seen.contains p.1))).map (fun p => p.2)

/-- The suppression comment written by injectExceptions. -/
def suppressionText : Str := "{{/* helmlint:ignore */}}".toList

/-- The per-file loop of injectExceptions: for every uncovered
declaration of the file, prepend an indented suppression comment and a
newline to the declaration's line (in the evolving line array, exactly
as in the source). -/
def applyExceptions : List Str → List DeclRef → List Str
  | lines, [] => lines
  | lines, d :: rest =>
    let indentation := findIndentation lines d.line
    let newLine :=
      List.replicate indentation ' ' ++ suppressionText ++ '\n' ::
        lines.getD d.line []
    applyExceptions (lines.set d.line newLine) rest

/-- Per-file injectExceptions on raw content. -/
def injectExceptionsFile (content : Str) (defs : List DeclRef) : Str :=
  joinNl (applyExceptions (splitNl content) defs)

/-- func injectExceptions: group uncovered declarations by file and
rewrite each affected file of the original chart tree; other files are
not touched. -/
def injectExceptionsTree (ids : List (Str × DeclRef)) (seen : List Str)
    (tree : List (Str × Str)) : List (Str × Str) :=
  tree.map (fun f =>
    let defs := (uncovered ids seen).filter (fun d => d.file = f.1)
    if defs.isEmpty then f else (f.1, injectExceptionsFile f.2 defs))

/-- The suppression comment line injectExceptions writes above a
declaration at line j, resolved against the given lines. -/
def suppressionFor (lines : List Str) (j : Nat) : Str :=
  List.replicate (findIndentation lines j) ' ' ++ suppressionText

/-- Specification-side block structure of a file after exception
injection: original line j preceded by its suppression comment when j is
a suppressed line. -/
def blockOf (lines : List Str) (dlines : List Nat) (j : Nat) : List Str :=
  if dlines.contains j then [suppressionFor lines j, lines.getD j []]
  else [lines.getD j []]

/-- The index of original line j in the line list produced by re-reading
a file after exception injection. -/
def newPos (dlines : List Nat) (j : Nat) : Nat :=
  j + (dlines.filter (fun l => l ≤ j)).length

/-- A suppression comment line at an arbitrary indentation, read off an
indentation assignment: the shape every suppression line written by
injectExceptions has, whatever indentation the evolving-array resolution
produced for it. -/
def suppLineInd (ind : Nat → Nat) (j : Nat) : Str :=
  List.replicate (ind j) ' ' ++ suppressionText

/-- Block structure of a file after exception injection with an
arbitrary indentation assignment for the suppression comments: original
line j preceded by an indented suppression comment when j is a
suppressed line. -/
def blockOfInd (lines : List Str) (dlines : List Nat) (ind : Nat → Nat)
    (j : Nat) : List Str :=
  if dlines.contains j then [suppLineInd ind j, lines.getD j []]
  else [lines.getD j []]

/-- The mode branch of Lint: exception mode rewrites the original chart
tree and reports no coverage failure; verification mode reports the
coverage failures and leaves the tree alone. -/
def reconcile (writeExceptions : Bool) (ids : List (Str × DeclRef))
    (seen : List Str) (chartTree : List (Str × Str)) :
    List Str × List (Str × Str) :=
  if writeExceptions then ([], injectExceptionsTree ids seen chartTree)
  else (verifyCoverage ids seen, chartTree)

/-- bufio.ScanLines drops one trailing carriage return from each line. -/
def dropCR (s : Str) : Str :=
  if List.isSuffixOf ['\r'] s then s.dropLast else s

/-- The lines produced by a bufio.Scanner over the content: split on
newline, without a final empty token when the content ends in a
newline. -/
def scanLines (content : Str) : List Str :=
  if content = [] then []
  else if List.isSuffixOf ['\n'] content then (splitNl content).dropLast.map dropCR
  else (splitNl content).map dropCR

/-- strings.TrimPrefix(s, pre). -/
def trimPrefixStr (s pre : Str) : Str :=
  if List.isPrefixOf pre s then s.drop pre.length else s

/-- The per-file scan loop of discoverComments: record
TrimPrefix(TrimSpace(line), prefix) for every line containing the marker
prefix. -/
def discoverLines : List Str → List Str
  | [] => []
  | line :: rest =>
    if containsSub markerPrefixStr line then
      trimPrefixStr (trimSpace line) markerPrefixStr :: discoverLines rest
    else discoverLines rest

/-- func discoverComments: walk the yaml files of the rendered tree and
collect the surviving tokens. -/
def discoverComments : List (Str × Str) → List Str
  | [] => []
  | (p, content) :: rest =>
    if isYamlName p then discoverLines (scanLines content) ++ discoverComments rest
    else discoverComments rest

/-- Declarative reading of the conditional opening-tag pattern, written
from the spec: two opening braces, optionally a dash, optional regexp
whitespace, then the characters i and f. -/
def SpecIfTag (s : Str) : Prop :=
  ∃ pre d ws rest,
    s = pre ++ '{' :: '{' :: (d ++ ws ++ 'i' :: 'f' :: rest) ∧
    (d = [] ∨ d = ['-']) ∧ (∀ c ∈ ws, isReSpace c = true)

-- Path handling (path/filepath, unix rules), needed by the options
-- model: IsAbs, Clean, Join, Abs.

/-- filepath.IsAbs. -/
def isAbs (p : Str) : Bool := p.head? = some '/'

/-- Split a path on the separator. -/
def splitSlash : Str → List Str
  | [] => [[]]
  | c :: rest =>
    if c = '/' then [] :: splitSlash rest
    else
      match splitSlash rest with
      | l :: ls => (c :: l) :: ls
      | [] => [[c]]

/-- The element processing of filepath.Clean: skip empty and dot
elements; dotdot pops a previous element, is dropped at an absolute
root, and is kept when nothing can be popped in a relative path. -/
def cleanParts (rooted : Bool) : List Str → List Str → List Str
  | acc, [] => acc.reverse
  | acc, seg :: rest =>
    if seg = [] || seg = ['.'] then cleanParts rooted acc rest
    else if seg = ['.', '.'] then
      match acc with
      | a :: acc' =>
        if a = ['.', '.'] then cleanParts rooted (seg :: a :: acc') rest
        else cleanParts rooted acc' rest
      | [] =>
        if rooted then cleanParts rooted [] rest
        else cleanParts rooted [seg] rest
    else cleanParts rooted (seg :: acc) rest

/-- Join path elements with the separator. -/
def joinSlash : List Str → Str
  | [] => []
  | [x] => x
  | x :: y :: rest => x ++ '/' :: joinSlash (y :: rest)

/-- filepath.Clean (lexical shortest equivalent path). -/
def cleanPath (p : Str) : Str :=
  if p = [] then ['.']
  else
    let rooted := isAbs p
    let parts := cleanParts rooted [] (splitSlash p)
    let body := joinSlash parts
    if body = [] then (if rooted then ['/'] else ['.'])
    else if rooted then '/' :: body else body

/-- filepath.Join of two elements: Clean of the concatenation, skipping
empty elements. -/
def joinPath (a b : Str) : Str :=
  if a = [] then (if b = [] then [] else cleanPath b)
  else if b = [] then cleanPath a
  else cleanPath (a ++ '/' :: b)

/-- filepath.Abs relative to a working directory. -/
def absPath (cwd p : Str) : Str :=
  if isAbs p then cleanPath p else joinPath cwd p

/-- A recursion extraction function: given the rendered directory it
either fails or produces the files written into the fresh target
directory. -/
def RecFn : Type := Str → Except Str (List (Str × Str))

/-- type options struct (the fields the claims touch; FixturesDirs and
Visitors omitted as no claim mentions them). Recursions hold a full
options value of their own, so the type is a single-constructor
inductive. -/
inductive Options where
  | mk (preserve writeExceptions : Bool) (concurrency : Nat)
      (chartDir policiesDir : Str) (recursions : List (RecFn × Options))

def Options.preserve : Options → Bool
  | .mk p _ _ _ _ _ => p

def Options.writeExceptions : Options → Bool
  | .mk _ w _ _ _ _ => w

def Options.concurrency : Options → Nat
  | .mk _ _ c _ _ _ => c

def Options.chartDir : Options → Str
  | .mk _ _ _ d _ _ => d

def Options.policiesDir : Options → Str
  | .mk _ _ _ _ d _ => d

def Options.recursions : Options → List (RecFn × Options)
  | .mk _ _ _ _ _ r => r

def Options.setWriteExceptions : Options → Bool → Options
  | .mk p _ c cd pd r, w => .mk p w c cd pd r

def Options.setConcurrency : Options → Nat → Options
  | .mk p w _ cd pd r, c => .mk p w c cd pd r

def Options.setChartDir : Options → Str → Options
  | .mk p w c _ pd r, cd => .mk p w c cd pd r

def Options.setPoliciesDir : Options → Str → Options
  | .mk p w c cd _ r, pd => .mk p w c cd pd r

def Options.setRecursions : Options → List (RecFn × Options) → Options
  | .mk p w c cd pd _, r => .mk p w c cd pd r

/-- The zero options value (&options{}). -/
def emptyOptions : Options :=
  .mk false false 0 [] [] []

/-- (o *options).chartRelPath. -/
def chartRelPath (cwd : Str) (o : Options) (path dflt : Str) : Str :=
  let path1 := if path = [] then dflt else path
  let path2 := if !isAbs path1 then joinPath o.chartDir path1 else path1
  absPath cwd path2

/-- (o *options).Finalize, with the working directory, the state of the
HELMLINT_WRITE_EXCEPTIONS environment variable, and runtime.NumCPU as
parameters. -/
def finalizeOpts (cwd : Str) (envWriteExceptions : Bool) (ncpu : Nat)
    (o : Options) : Options :=
  let o1 := if o.concurrency = 0 then o.setConcurrency (ncpu * 2) else o
  let o2 :=
    if !o1.writeExceptions then o1.setWriteExceptions envWriteExceptions
    else o1
  let o3 := o2.setChartDir (absPath cwd o2.chartDir)
  o3.setPoliciesDir (chartRelPath cwd o3 o3.policiesDir "policies".toList)

/-- WithChartDir. -/
def withChartDir (dir : Str) : Options → Options :=
  fun o => o.setChartDir dir

/-- WithPoliciesDir. -/
def withPoliciesDir (dir : Str) : Options → Options :=
  fun o => o.setPoliciesDir dir

/-- WithWriteExceptions. -/
def withWriteExceptions : Options → Options :=
  fun o => o.setWriteExceptions true

/-- WithRecursion: the rule options start from the chart and policies
directories the top-level options hold at registration time, the given
option functions are applied, and the result is finalized
independently. -/
def withRecursion (cwd : Str) (envWriteExceptions : Bool) (ncpu : Nat)
    (fn : RecFn) (ruleArgs : List (Options → Options)) :
    Options → Options :=
  fun o =>
    let r0 := (emptyOptions.setChartDir o.chartDir).setPoliciesDir o.policiesDir
    let r1 := ruleArgs.foldl (fun a f => f a) r0
    let r2 := finalizeOpts cwd envWriteExceptions ncpu r1
    o.setRecursions (o.recursions ++ [(fn, r2)])

/-- One observable event of the recursion walk. -/
inductive RecEvent where
  | fnError (dir : Str) (ruleIdx : Nat) (msg : Str)
  | noop (dir : Str) (ruleIdx : Nat)
  | policyRun (dir : Str) (ruleIdx : Nat) (policiesDir : Str) (passed : Bool)
deriving DecidableEq, Repr

/-- The (directory, rule index) pair an event belongs to. -/
def eventKey : RecEvent → Str × Nat
  | .fnError d i _ => (d, i)
  | .noop d i => (d, i)
  | .policyRun d i _ _ => (d, i)

/-- One (rendered directory, recursion rule) unit of walkRenderedChart:
a failing extraction reports an error and runs no policy pass; an
extraction writing no files is a no-op success; otherwise conftest runs
once against the target with the rule's own policies directory. -/
def runRulePair (conftest : Str → List (Str × Str) → Bool) (dir : Str)
    (idx : Nat) (rule : RecFn × Options) : RecEvent :=
  match rule.1 dir with
  | .error msg => .fnError dir idx msg
  | .ok files =>
    if files.isEmpty then .noop dir idx
    else .policyRun dir idx rule.2.policiesDir
      (conftest rule.2.policiesDir files)

/-- Enumerate the recursion rules with their indices. -/
def enumRules : Nat → List (RecFn × Options) → List (Nat × (RecFn × Options))
  | _, [] => []
  | i, r :: rest => (i, r) :: enumRules (i + 1) rest

/-- The recursion part of walkRenderedChart: every (output directory,
rule) pair is submitted independently. -/
def walkRecursions (conftest : Str → List (Str × Str) → Bool)
    (rules : List (RecFn × Options)) : List Str → List RecEvent
  | [] => []
  | dir :: rest =>
    (enumRules 0 rules).map (fun ir => runRulePair conftest dir ir.1 ir.2) ++
      walkRecursions conftest rules rest

/-- A concrete token supply for instantiating theorems: distinct
newline-free, marker-free tokens of strictly increasing length. -/
def witnessIds (n : Nat) : Str := List.replicate (n + 1) 'a'

/-- The shape every line of the evolving array keeps: newline free, or a
single embedded newline between two newline-free halves. -/
def NlShape (x : Str) : Prop :=
  ('\n' ∉ x) ∨ ∃ a b, x = a ++ '\n' :: b ∧ '\n' ∉ a ∧ '\n' ∉ b

/-! ## String basics -/

theorem head_dropWhile_reverse_dropWhile (p : Char → Bool) (s : Str) :
    ((s.dropWhile p).reverse.dropWhile p).head? = (s.reverse.dropWhile p).head? := by
  induction s with
  | nil => simp
  | cons c t ih =>
    by_cases h : p c = true
    · simp only [List.dropWhile_cons, h, if_true, List.reverse_cons]
      rw [ih, List.dropWhile_append]
      rcases hx : t.reverse.dropWhile p with _ | ⟨a, l⟩
      · simp [hx, List.dropWhile, h]
      · simp [hx, List.isEmpty_iff]
    · simp [List.dropWhile_cons, h]

theorem isPrefixOf_singleton (c : Char) (l : Str) :
    List.isPrefixOf [c] l = (l.head? == some c) := by
  cases l with
  | nil => rfl
  | cons b t => simp [List.isPrefixOf, eq_comm]

theorem pipeLine_eq_lastNonWs (s : Str) :
    pipeLine s = (lastNonWs s == some '|') := by
  unfold pipeLine lastNonWs
  rw [List.isSuffixOf, show (['|'] : Str).reverse = ['|'] from rfl,
    isPrefixOf_singleton]
  show ((trimSpace s).reverse.head? == _) = _
  unfold trimSpace
  rw [List.reverse_reverse, head_dropWhile_reverse_dropWhile]

theorem lastNonWs_append (a b : Str) :
    lastNonWs (a ++ b) =
      match lastNonWs b with
      | some c => some c
      | none => lastNonWs a := by
  unfold lastNonWs
  rw [List.reverse_append, List.dropWhile_append]
  rcases h : b.reverse.dropWhile isUnicodeSpace with _ | ⟨c, t⟩
  · simp [List.isEmpty_iff]
  · simp [h]

/-- Appending does not change pipeLine when the appended part has no
trailing non-whitespace. -/
theorem pipeLine_append_of_lastNonWs_none (a b : Str)
    (h : lastNonWs b = none) : pipeLine (a ++ b) = pipeLine a := by
  rw [pipeLine_eq_lastNonWs, pipeLine_eq_lastNonWs, lastNonWs_append, h]

/-- Appending decides pipeLine when the appended part ends (after
trimming) in a non-whitespace character. -/
theorem pipeLine_append_of_lastNonWs_some (a b : Str) (c : Char)
    (h : lastNonWs b = some c) : pipeLine (a ++ b) = (c == '|') := by
  rw [pipeLine_eq_lastNonWs, lastNonWs_append, h]
  rfl

theorem leadingSpaces_append_of_nonspace (a b : Str)
    (h : ∃ c ∈ a, c ≠ ' ') : leadingSpaces (a ++ b) = leadingSpaces a := by
  induction a with
  | nil => simp at h
  | cons x a' ih =>
    by_cases hx : x = ' '
    · subst hx
      have h' : ∃ c ∈ a', c ≠ ' ' := by
        rcases h with ⟨c, hc, hne⟩
        rcases List.mem_cons.mp hc with rfl | hc
        · exact absurd rfl hne
        · exact ⟨c, hc, hne⟩
      simp only [leadingSpaces, List.cons_append, List.takeWhile_cons] at *
      simp only [decide_eq_true_eq] at *
      simp [ih h']
    · simp [leadingSpaces, List.takeWhile_cons, hx]

/-! ## findIndentation: backward scan characterization (claim C1) -/

theorem scanBack_eq_none (lines : List Str) (start : Nat)
    (h : ∀ j, j ≤ start → pipeLine (lines.getD j []) = false) :
    scanBack lines start = none := by
  induction start with
  | zero =>
    unfold scanBack
    rw [h 0 (le_refl 0)]
    simp
  | succ s ih =>
    unfold scanBack
    rw [h (s + 1) (le_refl (s + 1))]
    simp only [Bool.false_eq_true, if_false]
    exact ih (fun j hj => h j (le_trans hj (Nat.le_succ s)))

theorem scanBack_found (lines : List Str) (start j : Nat)
    (hj : j ≤ start) (hp : pipeLine (lines.getD j []) = true)
    (hafter : ∀ k, j < k → k ≤ start → pipeLine (lines.getD k []) = false) :
    scanBack lines start = some (leadingSpaces (lines.getD j [])) := by
  induction start with
  | zero =>
    have hj0 : j = 0 := Nat.le_zero.mp hj
    subst hj0
    unfold scanBack
    rw [hp]
    simp
  | succ s ih =>
    rcases Nat.lt_or_ge j (s + 1) with hlt | hge
    · have hs1 : pipeLine (lines.getD (s + 1) []) = false :=
        hafter (s + 1) hlt (le_refl _)
      unfold scanBack
      rw [hs1]
      simp only [Bool.false_eq_true, if_false]
      exact ih (Nat.lt_succ_iff.mp hlt)
        (fun k hk hks => hafter k hk (le_trans hks (Nat.le_succ s)))
    · have hjs : j = s + 1 := le_antisymm hj hge
      subst hjs
      unfold scanBack
      rw [hp]
      simp

theorem scanBack_congr (l1 l2 : List Str) (start : Nat)
    (h : ∀ j, j ≤ start → l1.getD j [] = l2.getD j []) :
    scanBack l1 start = scanBack l2 start := by
  induction start with
  | zero =>
    unfold scanBack
    rw [h 0 (le_refl 0)]
  | succ s ih =>
    unfold scanBack
    rw [h (s + 1) (le_refl (s + 1)),
      ih (fun j hj => h j (le_trans hj (Nat.le_succ s)))]

/-- findIndentation reads only the lines at indices 0..start. -/
theorem findIndentation_congr (l1 l2 : List Str) (start : Nat)
    (h : ∀ j, j ≤ start → l1.getD j [] = l2.getD j []) :
    findIndentation l1 start = findIndentation l2 start := by
  unfold findIndentation
  rw [scanBack_congr l1 l2 start h, h start (le_refl start)]

/-- C1, amended: findIndentation scans backward from the candidate index
inclusive; if some line at index at most start has trimmed content
ending in the block-scalar indicator, the result is the leading-space
count of the nearest such line plus 2, otherwise it is the candidate
line's own leading-space count; only indices 0..start are read; and on
the three example lines the third line resolves to 5. (The original
claim's clause that a declaration at line 0 always resolves to its own
leading-space count fails when line 0 itself ends in the indicator; the
inclusive scan then yields its leading-space count plus 2.) -/
theorem findIndentation_resolution (lines : List Str) (start : Nat)
    (h : start < lines.length) :
    ((∀ j, j ≤ start → pipeLine (lines.getD j []) = false) →
      findIndentation lines start = leadingSpaces (lines.getD start [])) ∧
    (∀ j, j ≤ start → pipeLine (lines.getD j []) = true →
      (∀ k, j < k → k ≤ start → pipeLine (lines.getD k []) = false) →
      findIndentation lines start = leadingSpaces (lines.getD j []) + 2) ∧
    (∀ extra, findIndentation (lines.take (start + 1) ++ extra) start =
      findIndentation lines start) ∧
    findIndentation ["   foo: |".toList, "# foobar".toList,
      "  {{ if foo }}".toList] 2 = 5 := by
  refine ⟨?_, ?_, ?_, by decide⟩
  · intro hnone
    unfold findIndentation
    rw [scanBack_eq_none lines start hnone]
  · intro j hj hp hafter
    unfold findIndentation
    rw [scanBack_found lines start j hj hp hafter]
  · intro extra
    apply findIndentation_congr
    intro j hj
    have hjlen : j < (lines.take (start + 1)).length := by
      rw [List.length_take]
      exact lt_min (Nat.lt_succ_of_le hj) (lt_of_le_of_lt hj h)
    rw [List.getD_append _ _ _ _ hjlen, List.getD_eq_getElem _ _ hjlen,
      List.getD_eq_getElem _ _ (lt_of_le_of_lt hj h)]
    simp

/-- C1 counterexample: the line consisting of an if-opening tag followed
by a space and the block-scalar indicator is a declaration at line 0,
its own leading-space count is 0, yet findIndentation resolves it to
2. -/
theorem findIndentation_line0_cex :
    declGuard ["{{ if x }} |".toList] 0 = true ∧
    leadingSpaces ("{{ if x }} |".toList) = 0 ∧
    findIndentation ["{{ if x }} |".toList] 0 = 2 := by
  decide

/-- Witness for findIndentation_resolution at the example input. -/
theorem findIndentation_resolution_witness :
    findIndentation ["   foo: |".toList, "# foobar".toList,
      "  {{ if foo }}".toList] 2 = 5 :=
  (findIndentation_resolution
    ["   foo: |".toList, "# foobar".toList, "  {{ if foo }}".toList] 2
    (by decide)).2.2.2

/-! ## The conditional regexp and the loop guard (claim C2) -/

theorem dropWhile_append_of_forall (p : Char → Bool) (ws l : Str)
    (hws : ∀ c ∈ ws, p c = true) :
    (ws ++ l).dropWhile p = l.dropWhile p := by
  induction ws with
  | nil => rfl
  | cons c t ih =>
    have hc : p c = true := hws c (List.mem_cons_self c t)
    simp only [List.cons_append, List.dropWhile_cons, hc, if_true]
    exact ih (fun c hc' => hws c (List.mem_cons_of_mem _ hc'))

theorem startsIf_iff (s : Str) :
    startsIf s = true ↔ ∃ t, s = 'i' :: 'f' :: t := by
  rcases s with _ | ⟨a, _ | ⟨b, t⟩⟩
  · simp [startsIf]
  · simp [startsIf]
  · simp only [startsIf, Bool.and_eq_true, decide_eq_true_eq]
    constructor
    · rintro ⟨rfl, rfl⟩
      exact ⟨t, rfl⟩
    · rintro ⟨t', heq⟩
      injection heq with h1 h2
      injection h2 with h2 h3
      exact ⟨h1, h2⟩

theorem matchIfAfterBraces_iff (cs : Str) :
    matchIfAfterBraces cs = true ↔
      ∃ d ws rest, cs = d ++ ws ++ 'i' :: 'f' :: rest ∧
        (d = [] ∨ d = ['-']) ∧ (∀ c ∈ ws, isReSpace c = true) := by
  unfold matchIfAfterBraces
  constructor
  · intro h
    obtain ⟨t, ht⟩ := (startsIf_iff _).mp h
    have hsplit : stripDash cs =
        (stripDash cs).takeWhile isReSpace ++ 'i' :: 'f' :: t := by
      conv_lhs => rw [← List.takeWhile_append_dropWhile (p := isReSpace)
        (l := stripDash cs)]
      rw [ht]
    cases cs with
    | nil => simp [stripDash] at hsplit
    | cons c r =>
      by_cases hc : c = '-'
      · subst hc
        have hsd : stripDash ('-' :: r) = r := by simp [stripDash]
        rw [hsd] at hsplit
        refine ⟨['-'], (stripDash ('-' :: r)).takeWhile isReSpace, t, ?_,
          Or.inr rfl, fun c hc => List.mem_takeWhile_imp hc⟩
        rw [hsd]
        exact congrArg (List.cons '-') hsplit
      · have hsd : stripDash (c :: r) = c :: r := by simp [stripDash, hc]
        rw [hsd] at hsplit
        refine ⟨[], (stripDash (c :: r)).takeWhile isReSpace, t, ?_,
          Or.inl rfl, fun c hc => List.mem_takeWhile_imp hc⟩
        rw [hsd, List.nil_append]
        exact hsplit
  · rintro ⟨d, ws, rest, rfl, hd, hws⟩
    have hdrop : (ws ++ 'i' :: 'f' :: rest).dropWhile isReSpace =
        'i' :: 'f' :: rest := by
      rw [dropWhile_append_of_forall isReSpace ws _ hws]
      simp [List.dropWhile_cons, isReSpace]
    have hif : startsIf ('i' :: 'f' :: rest) = true := by simp [startsIf]
    rcases hd with rfl | rfl
    · have hsd : stripDash (ws ++ 'i' :: 'f' :: rest) =
          ws ++ 'i' :: 'f' :: rest := by
        cases hws0 : ws with
        | nil => simp [stripDash]
        | cons w ws' =>
          have hw : isReSpace w = true := by
            rw [hws0] at hws
            exact hws w (List.mem_cons_self w ws')
          have hwne : ¬ w = '-' := by
            intro heq
            rw [heq] at hw
            simp [isReSpace] at hw
          simp [stripDash, hwne]
      rw [List.nil_append, hsd, hdrop]
      exact hif
    · have hsd : stripDash ('-' :: (ws ++ 'i' :: 'f' :: rest)) =
          ws ++ 'i' :: 'f' :: rest := by simp [stripDash]
      simp only [List.cons_append, List.nil_append]
      rw [hsd, hdrop]
      exact hif

theorem hasIfTag_append_of_at (pre t : Str) (h : ifTagAt t = true) :
    hasIfTag (pre ++ t) = true := by
  induction pre with
  | nil =>
    cases t with
    | nil => simp [ifTagAt] at h
    | cons c r => simp [hasIfTag, h]
  | cons c pre' ih => simp [hasIfTag, ih]

theorem ifTagAt_inv (s : Str) (h : ifTagAt s = true) :
    ∃ cs, s = '{' :: '{' :: cs ∧ matchIfAfterBraces cs = true := by
  unfold ifTagAt at h
  split at h
  · exact ⟨_, rfl, h⟩
  · exact absurd h (by simp)

theorem conditionalRegexMatches_iff (s : Str) :
    conditionalRegexMatches s = true ↔ SpecIfTag s := by
  constructor
  · intro h
    unfold conditionalRegexMatches at h
    induction s with
    | nil => simp [hasIfTag] at h
    | cons c rest ih =>
      rw [hasIfTag, Bool.or_eq_true] at h
      rcases h with h | h
      · obtain ⟨cs, heq, hm⟩ := ifTagAt_inv _ h
        obtain ⟨d, ws, r2, hcs, hd, hws⟩ := (matchIfAfterBraces_iff cs).mp hm
        exact ⟨[], d, ws, r2, by rw [heq, hcs]; rfl, hd, hws⟩
      · obtain ⟨pre, d, ws, r2, heq, hd, hws⟩ := ih h
        exact ⟨c :: pre, d, ws, r2, by rw [heq]; rfl, hd, hws⟩
  · rintro ⟨pre, d, ws, rest, rfl, hd, hws⟩
    unfold conditionalRegexMatches
    apply hasIfTag_append_of_at
    show ifTagAt ('{' :: '{' :: (d ++ ws ++ 'i' :: 'f' :: rest)) = true
    unfold ifTagAt
    exact (matchIfAfterBraces_iff _).mpr ⟨d, ws, rest, rfl, hd, hws⟩

theorem containsSub_iff_isInf (sub s : Str) :
    containsSub sub s = true ↔ sub <:+: s := by
  induction s with
  | nil =>
    simp only [containsSub, List.isEmpty_iff]
    exact ⟨fun h => h ▸ List.infix_rfl, fun h => List.eq_nil_of_infix_nil h⟩
  | cons c rest ih =>
    rw [containsSub, Bool.or_eq_true, ih, List.infix_cons_iff]
    constructor
    · rintro (h | h)
      · exact Or.inl (List.isPrefixOf_iff_prefix.mp h)
      · exact Or.inr h
    · rintro (h | h)
      · exact Or.inl (List.isPrefixOf_iff_prefix.mpr h)
      · exact Or.inr h

/-- C2: line i passes the declaration guard of injectComments exactly
when it matches the conditional opening-tag pattern (two opening braces,
an optional dash with optional regexp whitespace, then the characters i
and f), does not contain the suppression marker text, and, when i > 0,
the preceding line does not contain the suppression marker text
either. -/
theorem declGuard_characterization (lines : List Str) (i : Nat) :
    declGuard lines i = true ↔
      (SpecIfTag (lines.getD i []) ∧
        ¬ (ignoreMarker <:+: lines.getD i []) ∧
        (0 < i → ¬ (ignoreMarker <:+: lines.getD (i - 1) []))) := by
  cases i with
  | zero =>
    rw [declGuard, Bool.and_eq_true, conditionalRegexMatches_iff,
      Bool.not_eq_true', ← Bool.not_eq_true, containsSub_iff_isInf]
    simp
  | succ n =>
    rw [declGuard, Bool.and_eq_true, Bool.and_eq_true,
      conditionalRegexMatches_iff, Bool.not_eq_true', Bool.not_eq_true',
      ← Bool.not_eq_true, ← Bool.not_eq_true, containsSub_iff_isInf,
      containsSub_iff_isInf]
    constructor
    · rintro ⟨⟨h1, h2⟩, h3⟩
      exact ⟨h1, h2, fun _ => by simpa using h3⟩
    · rintro ⟨h1, h2, h3⟩
      exact ⟨⟨h1, h2⟩, by simpa using h3 (Nat.succ_pos n)⟩

/-! ## Stability of the guard under marker insertion -/

theorem prefix_append_sep (n a c : Str) (sep : Char) (hn : sep ∉ n) :
    n <+: (a ++ sep :: c) ↔ n <+: a := by
  constructor
  · intro h
    rcases le_or_lt n.length a.length with hle | hlt
    · exact List.prefix_of_prefix_length_le h (List.prefix_append a (sep :: c)) hle
    · exfalso
      have hsep : (a ++ [sep]) <+: n := by
        apply List.prefix_of_prefix_length_le _ h
        · simpa using hlt
        · simpa using List.prefix_append (a ++ [sep]) c
      exact hn (hsep.sublist.mem (by simp))
  · intro h
    exact h.trans (List.prefix_append a (sep :: c))

theorem containsSub_append_sep (n a c : Str) (sep : Char) (hn : sep ∉ n) :
    containsSub n (a ++ sep :: c) = (containsSub n a || containsSub n c) := by
  induction a with
  | nil =>
    rw [List.nil_append, containsSub]
    cases n with
    | nil => simp [containsSub]
    | cons x xs =>
      have hpf : List.isPrefixOf (x :: xs) (sep :: c) = false := by
        rw [← Bool.not_eq_true, List.isPrefixOf_iff_prefix]
        intro h
        rcases List.cons_prefix_cons.mp h with ⟨rfl, -⟩
        exact hn (List.mem_cons_self _ _)
      simp [containsSub, hpf]
  | cons c0 a' ih =>
    rw [List.cons_append, containsSub, ih, containsSub]
    have hpf : List.isPrefixOf n (c0 :: (a' ++ sep :: c)) =
        List.isPrefixOf n (c0 :: a') := by
      rcases hb : List.isPrefixOf n (c0 :: a') with _ | _
      · rw [← Bool.not_eq_true, List.isPrefixOf_iff_prefix]
        intro h
        rw [← Bool.not_eq_true] at hb
        exact hb (List.isPrefixOf_iff_prefix.mpr
          ((prefix_append_sep n (c0 :: a') c sep hn).mp (by simpa using h)))
      · rw [List.isPrefixOf_iff_prefix] at hb
        rw [List.isPrefixOf_iff_prefix]
        show n <+: ((c0 :: a') ++ sep :: c)
        exact hb.trans (List.prefix_append _ _)
    rw [hpf, Bool.or_assoc]

theorem contains_cons_of_not_pf (n : Str) (c : Char) (t : Str)
    (h : List.isPrefixOf n (c :: t) = false) :
    containsSub n (c :: t) = containsSub n t := by
  rw [containsSub, h, Bool.false_or]

theorem containsSub_ignore_markerPre (id : Str) :
    containsSub ignoreMarker (markerPrefixStr ++ id) =
      containsSub ignoreMarker id := rfl

theorem containsSub_ignore_mkMarkerLine (k : Nat) (id : Str) :
    containsSub ignoreMarker (mkMarkerLine k id) =
      containsSub ignoreMarker id := by
  induction k with
  | zero =>
    show containsSub ignoreMarker (markerPrefixStr ++ id) = _
    exact containsSub_ignore_markerPre id
  | succ m ih => exact ih

/-- The marker insertion never introduces or removes the suppression
marker text, provided the token itself does not contain it. -/
theorem containsSub_ignore_marked (line : Str) (k : Nat) (id : Str)
    (hid : containsSub ignoreMarker id = false) :
    containsSub ignoreMarker (line ++ '\n' :: mkMarkerLine k id) =
      containsSub ignoreMarker line := by
  rw [containsSub_append_sep _ _ _ '\n' (by decide),
    containsSub_ignore_mkMarkerLine, hid, Bool.or_false]

theorem lastNonWs_cons (c : Char) (s : Str) :
    lastNonWs (c :: s) =
      match lastNonWs s with
      | some x => some x
      | none => if isUnicodeSpace c then none else some c := by
  have := lastNonWs_append [c] s
  rw [List.singleton_append] at this
  rw [this]
  rcases lastNonWs s with _ | x
  · show _ = if _ then _ else _
    unfold lastNonWs
    rcases h : isUnicodeSpace c with _ | _ <;> simp [List.dropWhile, h]
  · rfl

theorem lastNonWs_replicate_space (k : Nat) :
    lastNonWs (List.replicate k ' ') = none := by
  induction k with
  | zero => rfl
  | succ m ih =>
    rw [List.replicate_succ, lastNonWs_cons, ih]
    decide

theorem lastNonWs_mkMarkerLine (k : Nat) (id : Str) :
    lastNonWs (mkMarkerLine k id) =
      match lastNonWs id with
      | some c => some c
      | none => some ':' := by
  unfold mkMarkerLine
  rw [List.append_assoc, lastNonWs_append, lastNonWs_append]
  rcases hid : lastNonWs id with _ | c
  · simp only [lastNonWs_replicate_space]
    rfl
  · rfl

/-- The rewritten declaration line never tests as a block-scalar opener,
provided the token does not end (after trimming) in the indicator. -/
theorem pipeLine_marked (line : Str) (k : Nat) (id : Str)
    (hid : pipeLine id = false) :
    pipeLine (line ++ '\n' :: mkMarkerLine k id) = false := by
  rw [pipeLine_eq_lastNonWs, lastNonWs_append]
  rw [pipeLine_eq_lastNonWs] at hid
  have hmk : lastNonWs ('\n' :: mkMarkerLine k id) =
      match lastNonWs id with
      | some c => some c
      | none => some ':' := by
    rw [lastNonWs_cons, lastNonWs_mkMarkerLine]
    rcases lastNonWs id with _ | c <;> rfl
  rw [hmk]
  rcases hl : lastNonWs id with _ | c
  · rfl
  · rw [hl] at hid
    simpa using hid

/-- A line matching the conditional pattern contains an opening brace,
hence a non-space character. -/
theorem exists_nonspace_of_regex (line : Str)
    (h : conditionalRegexMatches line = true) : ∃ c ∈ line, c ≠ ' ' := by
  obtain ⟨pre, d, ws, rest, rfl, -, -⟩ := (conditionalRegexMatches_iff line).mp h
  exact ⟨'{', by simp, by decide⟩

/-- The rewritten declaration line keeps its leading-space count. -/
theorem leadingSpaces_marked (line : Str) (k : Nat) (id : Str)
    (h : conditionalRegexMatches line = true) :
    leadingSpaces (line ++ '\n' :: mkMarkerLine k id) = leadingSpaces line :=
  leadingSpaces_append_of_nonspace _ _ (exists_nonspace_of_regex line h)

/-! ## List index and splitting helpers -/

theorem getD_eq_getElemD (l : List Str) (n : Nat) :
    l.getD n [] = (l[n]?).getD [] := by
  rw [List.getD_eq_getD_get?, List.get?_eq_getElem?]

theorem getD_set_self' (l : List Str) (i : Nat) (a : Str) (h : i < l.length) :
    (l.set i a).getD i [] = a := by
  rw [List.getD_eq_getElem _ _ (by simpa using h)]
  simp [h]

theorem getD_set_ne' (l : List Str) (i j : Nat) (a : Str) (h : i ≠ j) :
    (l.set i a).getD j [] = l.getD j [] := by
  rw [getD_eq_getElemD, getD_eq_getElemD, List.getElem?_set_ne h]

theorem take_set_of_le (l : List Str) (i n : Nat) (a : Str) (h : n ≤ i) :
    (l.set i a).take n = l.take n := by
  apply List.ext_getElem?
  intro m
  rcases Nat.lt_or_ge m n with hm | hm
  · rw [List.getElem?_take_of_lt hm, List.getElem?_take_of_lt hm,
      List.getElem?_set_ne (by omega)]
  · rw [List.getElem?_take_eq_none (by simpa using hm),
      List.getElem?_take_eq_none (by simpa using hm)]

theorem getD_of_take_eq (l1 l2 : List Str) (n i : Nat)
    (h : l1.take n = l2.take n) (hi : i < n) : l1.getD i [] = l2.getD i [] := by
  rw [getD_eq_getElemD, getD_eq_getElemD, ← List.getElem?_take_of_lt hi,
    ← List.getElem?_take_of_lt (l := l2) hi, h]

theorem scanBack_congr_pl (l1 l2 : List Str)
    (h : ∀ i, pipeLine (l1.getD i []) = pipeLine (l2.getD i []) ∧
      leadingSpaces (l1.getD i []) = leadingSpaces (l2.getD i [])) :
    ∀ s, scanBack l1 s = scanBack l2 s := by
  intro s
  induction s with
  | zero =>
    unfold scanBack
    rw [(h 0).1, (h 0).2]
  | succ m ih =>
    unfold scanBack
    rw [(h (m + 1)).1, (h (m + 1)).2, ih]

theorem findIndentation_congr_pl (l1 l2 : List Str)
    (h : ∀ i, pipeLine (l1.getD i []) = pipeLine (l2.getD i []) ∧
      leadingSpaces (l1.getD i []) = leadingSpaces (l2.getD i [])) :
    ∀ s, findIndentation l1 s = findIndentation l2 s := by
  intro s
  unfold findIndentation
  rw [scanBack_congr_pl l1 l2 h s, (h s).2]

theorem declGuard_congr (cur orig : List Str) (j : Nat)
    (hj : cur.getD j [] = orig.getD j [])
    (hign : ∀ i, containsSub ignoreMarker (cur.getD i []) =
      containsSub ignoreMarker (orig.getD i [])) :
    declGuard cur j = declGuard orig j := by
  cases j with
  | zero => rw [declGuard, declGuard, hj]
  | succ n => rw [declGuard, declGuard, hj, hign n]

theorem declGuard_regex (lines : List Str) (i : Nat)
    (h : declGuard lines i = true) :
    conditionalRegexMatches (lines.getD i []) = true := by
  cases i with
  | zero =>
    rw [declGuard, Bool.and_eq_true] at h
    exact h.1
  | succ n =>
    rw [declGuard, Bool.and_eq_true, Bool.and_eq_true] at h
    exact h.1.1

theorem splitNl_ne_nil (s : Str) : splitNl s ≠ [] := by
  cases s with
  | nil => simp [splitNl]
  | cons c rest =>
    rw [splitNl]
    by_cases hc : c = '\n'
    · simp [hc]
    · simp only [hc, if_false]
      rcases h : splitNl rest with _ | ⟨l, ls⟩ <;> simp

theorem splitNl_nlfree (x : Str) (h : '\n' ∉ x) : splitNl x = [x] := by
  induction x with
  | nil => rfl
  | cons c rest ih =>
    have hc : ¬ c = '\n' := fun hc => h (hc ▸ List.mem_cons_self c rest)
    rw [splitNl, if_neg hc, ih (fun hm => h (List.mem_cons_of_mem c hm))]

theorem splitNl_append_nlfree (x b : Str) (h : '\n' ∉ x) :
    splitNl (x ++ '\n' :: b) = x :: splitNl b := by
  induction x with
  | nil => simp [splitNl]
  | cons c rest ih =>
    have hc : ¬ c = '\n' := fun hc => h (hc ▸ List.mem_cons_self c rest)
    rw [List.cons_append, splitNl, if_neg hc,
      ih (fun hm => h (List.mem_cons_of_mem c hm))]

theorem splitNl_joinNl (l : List Str) (hne : l ≠ [])
    (hshape : ∀ x ∈ l, NlShape x) :
    splitNl (joinNl l) = l.flatMap splitNl := by
  induction l with
  | nil => exact absurd rfl hne
  | cons x rest ih =>
    cases rest with
    | nil => simp [joinNl]
    | cons y t =>
      have hx : NlShape x := hshape x (List.mem_cons_self _ _)
      have hstep : joinNl (x :: y :: t) = x ++ '\n' :: joinNl (y :: t) := rfl
      rw [hstep]
      have hrest : splitNl (joinNl (y :: t)) = (y :: t).flatMap splitNl :=
        ih (by simp) (fun z hz => hshape z (List.mem_cons_of_mem x hz))
      rcases hx with hx | ⟨a, b, rfl, ha, hb⟩
      · rw [splitNl_append_nlfree x _ hx, hrest]
        simp [splitNl_nlfree x hx]
      · rw [List.append_assoc, List.cons_append,
          splitNl_append_nlfree a _ ha, splitNl_append_nlfree b _ hb, hrest]
        simp [splitNl_append_nlfree a _ ha, splitNl_nlfree b hb]

theorem nl_not_mem_mkMarkerLine (ind : Nat) (id : Str) (h : '\n' ∉ id) :
    '\n' ∉ mkMarkerLine ind id := by
  unfold mkMarkerLine
  intro hm
  rcases List.mem_append.mp hm with hm | hm
  · rcases List.mem_append.mp hm with hm | hm
    · exact absurd (List.eq_of_mem_replicate hm) (by decide)
    · exact absurd hm (by decide)
  · exact h hm

theorem splitNl_elements_nlfree (s : Str) : ∀ x ∈ splitNl s, '\n' ∉ x := by
  induction s with
  | nil => simp [splitNl]
  | cons c rest ih =>
    rw [splitNl]
    by_cases hc : c = '\n'
    · simp only [hc, if_true]
      intro x hx
      rcases List.mem_cons.mp hx with rfl | hx
      · simp
      · exact ih x hx
    · simp only [hc, if_false]
      rcases h : splitNl rest with _ | ⟨l, ls⟩
      · exact absurd h (splitNl_ne_nil rest)
      · intro x hx
        rcases List.mem_cons.mp hx with rfl | hx
        · intro hm
          rcases List.mem_cons.mp hm with hm | hm
          · exact hc hm.symm
          · exact ih l (h ▸ List.mem_cons_self l ls) hm
        · exact ih x (h ▸ List.mem_cons_of_mem l hx)

/-! ## The injection loop bridge (claims C3, C4) -/

theorem injectLinesAux_bridge (f : Str) (ids : Nat → Str) (orig : List Str)
    (hIdNl : ∀ k, '\n' ∉ ids k)
    (hIdIgn : ∀ k, containsSub ignoreMarker (ids k) = false)
    (hIdPipe : ∀ k, pipeLine (ids k) = false)
    (hDecl : ∀ i, i < orig.length → declGuard orig i = true →
      pipeLine (orig.getD i []) = false)
    (hOrigNl : ∀ x ∈ orig, '\n' ∉ x) :
    ∀ (k j : Nat) (cur : List Str) (ctr : Nat),
      j + k = orig.length →
      cur.length = orig.length →
      (∀ i, j ≤ i → cur.getD i [] = orig.getD i []) →
      (∀ i, pipeLine (cur.getD i []) = pipeLine (orig.getD i []) ∧
            leadingSpaces (cur.getD i []) = leadingSpaces (orig.getD i []) ∧
            containsSub ignoreMarker (cur.getD i []) =
              containsSub ignoreMarker (orig.getD i [])) →
      (∀ x ∈ cur, NlShape x) →
      (injectLinesAux f ids cur ctr (List.range' j k)).2.1 =
          expectedRegs f ids orig
            ((List.range' j k).filter (fun i => declGuard orig i)) ctr ∧
      (injectLinesAux f ids cur ctr (List.range' j k)).2.2 =
          ctr + ((List.range' j k).filter (fun i => declGuard orig i)).length ∧
      (injectLinesAux f ids cur ctr (List.range' j k)).1.length = cur.length ∧
      (injectLinesAux f ids cur ctr (List.range' j k)).1.take j = cur.take j ∧
      ((injectLinesAux f ids cur ctr (List.range' j k)).1.drop j).flatMap splitNl
          = expectedOut orig ids (List.range' j k) ctr ∧
      (∀ x ∈ (injectLinesAux f ids cur ctr (List.range' j k)).1, NlShape x) := by
  intro k
  induction k with
  | zero =>
    intro j cur ctr hjk hlen h2 h3 hshape
    rw [List.range'_zero]
    have hj : j = cur.length := by omega
    subst hj
    refine ⟨rfl, ?_, rfl, rfl, ?_, hshape⟩
    · show ctr = ctr + (List.filter (fun i => declGuard orig i) []).length
      simp
    · show (cur.drop cur.length).flatMap splitNl = expectedOut orig ids [] ctr
      rw [List.drop_length]
      rfl
  | succ k ih =>
    intro j cur ctr hjk hlen h2 h3 hshape
    have hjlt : j < orig.length := by omega
    have hjcur : j < cur.length := by omega
    have hcurj : cur.getD j [] = orig.getD j [] := h2 j (le_refl j)
    have hguard : declGuard cur j = declGuard orig j :=
      declGuard_congr cur orig j hcurj (fun i => (h3 i).2.2)
    have horigmem : orig.getD j [] ∈ orig := by
      rw [List.getD_eq_getElem _ _ hjlt]
      exact List.getElem_mem hjlt
    have horignl : '\n' ∉ orig.getD j [] := hOrigNl _ horigmem
    rw [List.range'_succ]
    rcases hg : declGuard orig j with _ | _
    · -- not a declaration: the line is skipped
      have hstep : injectLinesAux f ids cur ctr (j :: List.range' (j + 1) k) =
          injectLinesAux f ids cur ctr (List.range' (j + 1) k) := by
        rw [injectLinesAux, hguard, hg]
        simp
      obtain ⟨iR, iC, iL, iT, iD, iS⟩ :=
        ih (j + 1) cur ctr (by omega) hlen
          (fun i hi => h2 i (by omega)) h3 hshape
      rw [hstep]
      have hfilter : (j :: List.range' (j + 1) k).filter
          (fun i => declGuard orig i) =
          (List.range' (j + 1) k).filter (fun i => declGuard orig i) := by
        rw [List.filter_cons]
        simp [hg]
      refine ⟨by rw [hfilter]; exact iR, by rw [hfilter]; exact iC, iL, ?_, ?_, iS⟩
      · rw [← take_set_of_le cur j j (cur.getD j []) (le_refl j)]
        have : (cur.set j (cur.getD j [])).take j = cur.take j :=
          take_set_of_le _ _ _ _ (le_refl j)
        rw [this]
        calc (injectLinesAux f ids cur ctr (List.range' (j + 1) k)).1.take j
            = ((injectLinesAux f ids cur ctr
                (List.range' (j + 1) k)).1.take (j + 1)).take j := by
              rw [List.take_take]
              simp [Nat.min_def]
          _ = (cur.take (j + 1)).take j := by rw [iT]
          _ = cur.take j := by rw [List.take_take]; simp [Nat.min_def]
      · have hfin_len : (injectLinesAux f ids cur ctr
            (List.range' (j + 1) k)).1.length = cur.length := iL
        have hfin_j : (injectLinesAux f ids cur ctr
            (List.range' (j + 1) k)).1.getD j [] = cur.getD j [] :=
          getD_of_take_eq _ _ (j + 1) j iT (Nat.lt_succ_self j)
        have hlen2 : j < (injectLinesAux f ids cur ctr
            (List.range' (j + 1) k)).1.length := by omega
        have hdropstep : (injectLinesAux f ids cur ctr
            (List.range' (j + 1) k)).1.drop j =
            cur.getD j [] :: (injectLinesAux f ids cur ctr
              (List.range' (j + 1) k)).1.drop (j + 1) := by
          rw [List.drop_eq_getElem_cons hlen2]
          have hg2 : (injectLinesAux f ids cur ctr
              (List.range' (j + 1) k)).1[j] = (injectLinesAux f ids cur ctr
              (List.range' (j + 1) k)).1.getD j [] :=
            (List.getD_eq_getElem _ _ hlen2).symm
          rw [hg2, hfin_j]
        rw [hdropstep, List.flatMap_cons, iD, hcurj, splitNl_nlfree _ horignl]
        rw [expectedOut, hg]
        simp
    · -- a declaration: the line is rewritten and registered
      have hregex : conditionalRegexMatches (orig.getD j []) = true :=
        declGuard_regex orig j hg
      have hpipe_origj : pipeLine (orig.getD j []) = false := hDecl j hjlt hg
      have hind : findIndentation cur j = findIndentation orig j :=
        findIndentation_congr_pl cur orig
          (fun i => ⟨(h3 i).1, (h3 i).2.1⟩) j
      set marked := cur.getD j [] ++ '\n' ::
        mkMarkerLine (findIndentation cur j) (ids ctr) with hmarked
      have hmarked' : marked = orig.getD j [] ++ '\n' ::
          mkMarkerLine (findIndentation orig j) (ids ctr) := by
        rw [hmarked, hcurj, hind]
      have hstep : injectLinesAux f ids cur ctr (j :: List.range' (j + 1) k) =
          ((injectLinesAux f ids (cur.set j marked) (ctr + 1)
              (List.range' (j + 1) k)).1,
            (ids ctr, ⟨f, j, trimSpace (cur.getD j [])⟩) ::
              (injectLinesAux f ids (cur.set j marked) (ctr + 1)
                (List.range' (j + 1) k)).2.1,
            (injectLinesAux f ids (cur.set j marked) (ctr + 1)
              (List.range' (j + 1) k)).2.2) := by
        simp only [injectLinesAux]
        rw [hguard, hg]
        rfl
      -- invariants for the updated array
      have hlen' : (cur.set j marked).length = orig.length := by
        rw [List.length_set]; exact hlen
      have h2' : ∀ i, j + 1 ≤ i → (cur.set j marked).getD i [] = orig.getD i [] := by
        intro i hi
        rw [getD_set_ne' _ _ _ _ (by omega)]
        exact h2 i (by omega)
      have h3' : ∀ i, pipeLine ((cur.set j marked).getD i []) =
            pipeLine (orig.getD i []) ∧
          leadingSpaces ((cur.set j marked).getD i []) =
            leadingSpaces (orig.getD i []) ∧
          containsSub ignoreMarker ((cur.set j marked).getD i []) =
            containsSub ignoreMarker (orig.getD i []) := by
        intro i
        rcases eq_or_ne j i with rfl | hne
        · rw [getD_set_self' _ _ _ hjcur, hmarked']
          refine ⟨?_, ?_, ?_⟩
          · rw [pipeLine_marked _ _ _ (hIdPipe ctr), hpipe_origj]
          · exact leadingSpaces_marked _ _ _ hregex
          · exact containsSub_ignore_marked _ _ _ (hIdIgn ctr)
        · rw [getD_set_ne' _ _ _ _ hne]
          exact h3 i
      have hshape' : ∀ x ∈ cur.set j marked, NlShape x := by
        intro x hx
        rcases List.mem_or_eq_of_mem_set hx with hx | rfl
        · exact hshape x hx
        · right
          exact ⟨orig.getD j [], _, hmarked', horignl,
            nl_not_mem_mkMarkerLine _ _ (hIdNl ctr)⟩
      obtain ⟨iR, iC, iL, iT, iD, iS⟩ :=
        ih (j + 1) (cur.set j marked) (ctr + 1) (by omega) hlen' h2' h3' hshape'
      have hfilter : (j :: List.range' (j + 1) k).filter
          (fun i => declGuard orig i) =
          j :: (List.range' (j + 1) k).filter (fun i => declGuard orig i) := by
        rw [List.filter_cons]
        simp [hg]
      rw [hstep]
      refine ⟨?_, ?_, ?_, ?_, ?_, iS⟩
      · rw [hfilter, expectedRegs, iR, hcurj]
      · rw [hfilter, iC]
        simp [Nat.add_comm, Nat.add_assoc, Nat.add_left_comm]
      · rw [iL, List.length_set]
      · calc (injectLinesAux f ids (cur.set j marked) (ctr + 1)
              (List.range' (j + 1) k)).1.take j
            = ((injectLinesAux f ids (cur.set j marked) (ctr + 1)
                (List.range' (j + 1) k)).1.take (j + 1)).take j := by
              rw [List.take_take]; simp [Nat.min_def]
          _ = ((cur.set j marked).take (j + 1)).take j := by rw [iT]
          _ = (cur.set j marked).take j := by
              rw [List.take_take]; simp [Nat.min_def]
          _ = cur.take j := take_set_of_le _ _ _ _ (le_refl j)
      · have hfin_j : (injectLinesAux f ids (cur.set j marked) (ctr + 1)
            (List.range' (j + 1) k)).1.getD j [] = marked := by
          rw [getD_of_take_eq _ _ (j + 1) j iT (Nat.lt_succ_self j)]
          exact getD_set_self' _ _ _ hjcur
        have hlen2 : j < (injectLinesAux f ids (cur.set j marked) (ctr + 1)
            (List.range' (j + 1) k)).1.length := by
          rw [iL, List.length_set]
          omega
        have hdropstep : (injectLinesAux f ids (cur.set j marked) (ctr + 1)
            (List.range' (j + 1) k)).1.drop j =
            marked :: (injectLinesAux f ids (cur.set j marked) (ctr + 1)
              (List.range' (j + 1) k)).1.drop (j + 1) := by
          rw [List.drop_eq_getElem_cons hlen2]
          have hg2 : (injectLinesAux f ids (cur.set j marked) (ctr + 1)
              (List.range' (j + 1) k)).1[j] =
              (injectLinesAux f ids (cur.set j marked) (ctr + 1)
                (List.range' (j + 1) k)).1.getD j [] :=
            (List.getD_eq_getElem _ _ hlen2).symm
          rw [hg2, hfin_j]
        rw [hdropstep, List.flatMap_cons, iD, hmarked',
          splitNl_append_nlfree _ _ horignl,
          splitNl_nlfree _ (nl_not_mem_mkMarkerLine _ _ (hIdNl ctr))]
        rw [expectedOut, hg]
        simp

theorem witnessIds_nl : ∀ k, '\n' ∉ witnessIds k := fun _ hm =>
  absurd (List.eq_of_mem_replicate hm) (by decide)

theorem containsSub_ignore_replicate_a (m : Nat) :
    containsSub ignoreMarker (List.replicate m 'a') = false := by
  induction m with
  | zero => rfl
  | succ m ih =>
    rw [List.replicate_succ,
      contains_cons_of_not_pf ignoreMarker 'a' (List.replicate m 'a') rfl]
    exact ih

theorem witnessIds_ign : ∀ k, containsSub ignoreMarker (witnessIds k) = false :=
  fun k => containsSub_ignore_replicate_a (k + 1)

theorem lastNonWs_replicate_a (m : Nat) :
    lastNonWs (List.replicate (m + 1) 'a') = some 'a' := by
  induction m with
  | zero => decide
  | succ m ih =>
    rw [List.replicate_succ, lastNonWs_cons, ih]

theorem witnessIds_pipe : ∀ k, pipeLine (witnessIds k) = false := by
  intro k
  rw [pipeLine_eq_lastNonWs]
  unfold witnessIds
  rw [lastNonWs_replicate_a]
  decide

theorem witnessIds_inj : Function.Injective witnessIds := by
  intro a b h
  have := congrArg List.length h
  simp [witnessIds] at this
  exact this

/-- Per-file summary of injectComments: the rewritten content and the
registry entries both follow the specification-side description. -/
theorem injectFile_spec (f : Str) (ids : Nat → Str) (ctr : Nat) (content : Str)
    (hIdNl : ∀ k, '\n' ∉ ids k)
    (hIdIgn : ∀ k, containsSub ignoreMarker (ids k) = false)
    (hIdPipe : ∀ k, pipeLine (ids k) = false)
    (hDecl : ∀ i, i < (splitNl content).length →
      declGuard (splitNl content) i = true →
      pipeLine ((splitNl content).getD i []) = false) :
    splitNl (injectFileContent f ids ctr content).1 =
      expectedOut (splitNl content) ids
        (List.range (splitNl content).length) ctr ∧
    (injectFileContent f ids ctr content).2.1 =
      expectedRegs f ids (splitNl content) (detectedIdxs (splitNl content)) ctr ∧
    (injectFileContent f ids ctr content).2.2 =
      ctr + (detectedIdxs (splitNl content)).length := by
  obtain ⟨hR, hC, hL, hT, hD, hS⟩ :=
    injectLinesAux_bridge f ids (splitNl content) hIdNl hIdIgn hIdPipe hDecl
      (splitNl_elements_nlfree content)
      (splitNl content).length 0 (splitNl content) ctr (by omega) rfl
      (fun i _ => rfl) (fun i => ⟨rfl, rfl, rfl⟩)
      (fun x hx => Or.inl (splitNl_elements_nlfree content x hx))
  have hrange : List.range (splitNl content).length =
      List.range' 0 (splitNl content).length := List.range_eq_range' _
  refine ⟨?_, ?_, ?_⟩
  · show splitNl (joinNl (injectLinesAux f ids (splitNl content) ctr
      (List.range (splitNl content).length)).1) = _
    rw [hrange]
    have hne : (injectLinesAux f ids (splitNl content) ctr
        (List.range' 0 (splitNl content).length)).1 ≠ [] := by
      intro hnil
      have hlen0 := hL
      rw [hnil] at hlen0
      rcases hsp : splitNl content with _ | ⟨a, l⟩
      · exact splitNl_ne_nil content hsp
      · rw [hsp] at hlen0
        simp at hlen0
    rw [splitNl_joinNl _ hne hS]
    rw [List.drop_zero] at hD
    exact hD
  · show (injectLinesAux f ids (splitNl content) ctr
      (List.range (splitNl content).length)).2.1 = _
    rw [hrange, hR, detectedIdxs, hrange]
  · show (injectLinesAux f ids (splitNl content) ctr
      (List.range (splitNl content).length)).2.2 = _
    rw [hrange, hC, detectedIdxs, hrange]

/-- The registry produced by the per-file loop depends only on the
original lines: the loop guard reads the regex of the still-unrewritten
line i and the suppression-marker content of line i - 1, and a rewritten
line keeps its suppression-marker content (for tokens free of the marker
text), so detection and the recorded entries never consult the rewritten
indentations. No assumption on block-scalar openers is needed. -/
theorem injectLinesAux_regs (f : Str) (ids : Nat → Str)
    (hIdIgn : ∀ k, containsSub ignoreMarker (ids k) = false)
    (orig : List Str) :
    ∀ (k j : Nat) (cur : List Str) (ctr : Nat),
      j + k = orig.length →
      cur.length = orig.length →
      (∀ i, j ≤ i → cur.getD i [] = orig.getD i []) →
      (∀ i, containsSub ignoreMarker (cur.getD i []) =
        containsSub ignoreMarker (orig.getD i [])) →
      (injectLinesAux f ids cur ctr (List.range' j k)).2.1 =
          expectedRegs f ids orig
            ((List.range' j k).filter (fun i => declGuard orig i)) ctr ∧
      (injectLinesAux f ids cur ctr (List.range' j k)).2.2 =
          ctr + ((List.range' j k).filter (fun i => declGuard orig i)).length := by
  intro k
  induction k with
  | zero =>
    intro j cur ctr hjk hlen h2 h3
    rw [List.range'_zero]
    refine ⟨rfl, ?_⟩
    show ctr = ctr + (List.filter (fun i => declGuard orig i) []).length
    simp
  | succ k ih =>
    intro j cur ctr hjk hlen h2 h3
    have hjlt : j < orig.length := by omega
    have hjcur : j < cur.length := by omega
    have hcurj : cur.getD j [] = orig.getD j [] := h2 j (le_refl j)
    have hguard : declGuard cur j = declGuard orig j :=
      declGuard_congr cur orig j hcurj h3
    rw [List.range'_succ]
    rcases hg : declGuard orig j with _ | _
    · have hstep : injectLinesAux f ids cur ctr (j :: List.range' (j + 1) k) =
          injectLinesAux f ids cur ctr (List.range' (j + 1) k) := by
        rw [injectLinesAux, hguard, hg]
        simp
      obtain ⟨iR, iC⟩ := ih (j + 1) cur ctr (by omega) hlen
        (fun i hi => h2 i (by omega)) h3
      rw [hstep]
      have hfilter : (j :: List.range' (j + 1) k).filter
          (fun i => declGuard orig i) =
          (List.range' (j + 1) k).filter (fun i => declGuard orig i) := by
        rw [List.filter_cons]
        simp [hg]
      exact ⟨by rw [hfilter]; exact iR, by rw [hfilter]; exact iC⟩
    · set marked := cur.getD j [] ++ '\n' ::
        mkMarkerLine (findIndentation cur j) (ids ctr) with hmarked
      have hstep : injectLinesAux f ids cur ctr (j :: List.range' (j + 1) k) =
          ((injectLinesAux f ids (cur.set j marked) (ctr + 1)
              (List.range' (j + 1) k)).1,
            (ids ctr, ⟨f, j, trimSpace (cur.getD j [])⟩) ::
              (injectLinesAux f ids (cur.set j marked) (ctr + 1)
                (List.range' (j + 1) k)).2.1,
            (injectLinesAux f ids (cur.set j marked) (ctr + 1)
              (List.range' (j + 1) k)).2.2) := by
        simp only [injectLinesAux]
        rw [hguard, hg]
        rfl
      have hlen' : (cur.set j marked).length = orig.length := by
        rw [List.length_set]; exact hlen
      have h2' : ∀ i, j + 1 ≤ i →
          (cur.set j marked).getD i [] = orig.getD i [] := by
        intro i hi
        rw [getD_set_ne' _ _ _ _ (by omega)]
        exact h2 i (by omega)
      have h3' : ∀ i, containsSub ignoreMarker ((cur.set j marked).getD i []) =
          containsSub ignoreMarker (orig.getD i []) := by
        intro i
        rcases eq_or_ne j i with rfl | hne
        · rw [getD_set_self' _ _ _ hjcur, hmarked, hcurj,
            containsSub_ignore_marked _ _ _ (hIdIgn ctr)]
        · rw [getD_set_ne' _ _ _ _ hne]
          exact h3 i
      obtain ⟨iR, iC⟩ :=
        ih (j + 1) (cur.set j marked) (ctr + 1) (by omega) hlen' h2' h3'
      have hfilter : (j :: List.range' (j + 1) k).filter
          (fun i => declGuard orig i) =
          j :: (List.range' (j + 1) k).filter (fun i => declGuard orig i) := by
        rw [List.filter_cons]
        simp [hg]
      rw [hstep]
      refine ⟨?_, ?_⟩
      · rw [hfilter, expectedRegs, iR, hcurj]
      · rw [hfilter, iC]
        simp [Nat.add_comm, Nat.add_assoc, Nat.add_left_comm]

/-- Per-file registry summary of injectComments without any assumption
on the file's contents: the registry entries and the final counter
follow the specification-side description for every file. -/
theorem injectFile_regs (f : Str) (ids : Nat → Str) (ctr : Nat)
    (content : Str)
    (hIdIgn : ∀ k, containsSub ignoreMarker (ids k) = false) :
    (injectFileContent f ids ctr content).2.1 =
      expectedRegs f ids (splitNl content) (detectedIdxs (splitNl content)) ctr ∧
    (injectFileContent f ids ctr content).2.2 =
      ctr + (detectedIdxs (splitNl content)).length := by
  obtain ⟨hR, hC⟩ :=
    injectLinesAux_regs f ids hIdIgn (splitNl content)
      (splitNl content).length 0 (splitNl content) ctr (by omega) rfl
      (fun i _ => rfl) (fun i => rfl)
  have hrange : List.range (splitNl content).length =
      List.range' 0 (splitNl content).length := List.range_eq_range' _
  constructor
  · show (injectLinesAux f ids (splitNl content) ctr
      (List.range (splitNl content).length)).2.1 = _
    rw [hrange, hR, detectedIdxs, hrange]
  · show (injectLinesAux f ids (splitNl content) ctr
      (List.range (splitNl content).length)).2.2 = _
    rw [hrange, hC, detectedIdxs, hrange]

/-- C3, corrected: per file, injectComments rewrites each detected
declaration line to "original line, newline, indentation, marker
comment" and leaves every other line unchanged, but the indentation is
resolved against the partially-rewritten line array, not the original
lines. When no detected declaration's own trimmed line ends in the
block-scalar indicator the two resolutions agree, and re-splitting the
rebuilt content yields exactly the original lines with one marker line
inserted after each detected declaration, in original order, with the
tokens assigned in sequence (the hypothesis on the token supply holds
for every uuid: tokens contain no newline, no suppression-marker text,
and never trim-end in the indicator). -/
theorem injectComments_rewrites_declarations (f : Str) (ids : Nat → Str)
    (ctr : Nat) (content : Str)
    (hIdNl : ∀ k, '\n' ∉ ids k)
    (hIdIgn : ∀ k, containsSub ignoreMarker (ids k) = false)
    (hIdPipe : ∀ k, pipeLine (ids k) = false)
    (hDecl : ∀ i, i < (splitNl content).length →
      declGuard (splitNl content) i = true →
      pipeLine ((splitNl content).getD i []) = false) :
    splitNl (injectFileContent f ids ctr content).1 =
      expectedOut (splitNl content) ids
        (List.range (splitNl content).length) ctr :=
  (injectFile_spec f ids ctr content hIdNl hIdIgn hIdPipe hDecl).1

/-- Witness for C3 at a concrete file with two declarations, one of them
suppressed by a preceding marker. -/
theorem injectComments_rewrites_declarations_witness :
    splitNl (injectFileContent "t.yaml".toList witnessIds 0
        "x: 1\n{{ if .a }}\n# helmlint:ignore\n{{ if .b }}\ny: 2".toList).1 =
      expectedOut
        (splitNl "x: 1\n{{ if .a }}\n# helmlint:ignore\n{{ if .b }}\ny: 2".toList)
        witnessIds
        (List.range (splitNl
          "x: 1\n{{ if .a }}\n# helmlint:ignore\n{{ if .b }}\ny: 2".toList).length)
        0 :=
  injectComments_rewrites_declarations _ witnessIds 0 _
    witnessIds_nl witnessIds_ign witnessIds_pipe (by decide)

/-- C3 counterexample: when a detected declaration line itself trim-ends
in the block-scalar indicator, the rewritten element no longer trim-ends
in it, so a later declaration's backward scan misses it. On a file whose
first line is an "if .a" declaration ending in " |" and whose second
line is an "if .b" declaration, the code emits the second marker at
indentation 0 while the per-original resolution claimed by the spec
gives indentation 2 — the output differs from the claimed description
even though the token supply is ideal. -/
theorem injectComments_pipe_decl_cex :
    declGuard (splitNl "{{ if .a }} |\n{{ if .b }}".toList) 0 = true ∧
    declGuard (splitNl "{{ if .a }} |\n{{ if .b }}".toList) 1 = true ∧
    splitNl (injectFileContent "t.yaml".toList witnessIds 0
        "{{ if .a }} |\n{{ if .b }}".toList).1 ≠
      expectedOut (splitNl "{{ if .a }} |\n{{ if .b }}".toList) witnessIds
        (List.range (splitNl "{{ if .a }} |\n{{ if .b }}".toList).length) 0 ∧
    (splitNl (injectFileContent "t.yaml".toList witnessIds 0
        "{{ if .a }} |\n{{ if .b }}".toList).1).getD 3 [] =
      mkMarkerLine 0 (witnessIds 1) ∧
    (expectedOut (splitNl "{{ if .a }} |\n{{ if .b }}".toList) witnessIds
        (List.range (splitNl "{{ if .a }} |\n{{ if .b }}".toList).length)
        0).getD 3 [] =
      mkMarkerLine 2 (witnessIds 1) := by
  decide

theorem expectedRegs_keys (f : Str) (ids : Nat → Str) (orig : List Str) :
    ∀ (ds : List Nat) (c : Nat),
      (expectedRegs f ids orig ds c).map Prod.fst =
        (List.range' c ds.length).map ids := by
  intro ds
  induction ds with
  | nil => intro c; rfl
  | cons i rest ih =>
    intro c
    rw [expectedRegs, List.map_cons, ih (c + 1), List.length_cons,
      List.range'_succ, List.map_cons]

theorem expectedTreeRegs_counter (ids : Nat → Str) :
    ∀ (tree : List (Str × Str)) (c : Nat),
      (expectedTreeRegs ids c tree).2 = c + totalDecls tree := by
  intro tree
  induction tree with
  | nil => intro c; simp [expectedTreeRegs, totalDecls]
  | cons fc rest ih =>
    intro c
    rcases fc with ⟨p, content⟩
    rw [expectedTreeRegs, totalDecls]
    rcases hy : isYamlName p with _ | _
    · simp only [Bool.false_eq_true, if_false]
      rw [ih c]
      simp
    · simp only [if_true]
      rw [ih]
      omega

theorem expectedTreeRegs_keys (ids : Nat → Str) :
    ∀ (tree : List (Str × Str)) (c : Nat),
      (expectedTreeRegs ids c tree).1.map Prod.fst =
        (List.range' c (totalDecls tree)).map ids := by
  intro tree
  induction tree with
  | nil => intro c; rfl
  | cons fc rest ih =>
    intro c
    rcases fc with ⟨p, content⟩
    rw [expectedTreeRegs, totalDecls]
    rcases hy : isYamlName p with _ | _
    · simp only [Bool.false_eq_true, if_false]
      rw [ih c]
      simp
    · simp only [if_true]
      rw [List.map_append, expectedRegs_keys, ih, ← List.map_append,
        List.range'_append_1, Nat.add_comm]

theorem injectTreeAux_regs (ids : Nat → Str)
    (hIdIgn : ∀ k, containsSub ignoreMarker (ids k) = false) :
    ∀ (tree : List (Str × Str)) (ctr : Nat),
      (injectTreeAux ids ctr tree).2.1 = (expectedTreeRegs ids ctr tree).1 ∧
      (injectTreeAux ids ctr tree).2.2 = (expectedTreeRegs ids ctr tree).2 := by
  intro tree
  induction tree with
  | nil => intro ctr; exact ⟨rfl, rfl⟩
  | cons fc rest ih =>
    intro ctr
    rcases fc with ⟨p, content⟩
    rw [injectTreeAux, expectedTreeRegs]
    rcases hy : isYamlName p with _ | _
    · simp only [Bool.false_eq_true, if_false]
      exact ih ctr
    · simp only [if_true]
      obtain ⟨hfR, hfC⟩ := injectFile_regs p ids ctr content hIdIgn
      obtain ⟨ihR, ihC⟩ := ih (injectFileContent p ids ctr content).2.2
      rw [hfC] at ihR ihC
      refine ⟨?_, ?_⟩
      · show (injectFileContent p ids ctr content).2.1 ++
            (injectTreeAux ids (injectFileContent p ids ctr content).2.2 rest).2.1 = _
        rw [hfR, hfC, ihR]
      · show (injectTreeAux ids (injectFileContent p ids ctr content).2.2 rest).2.2 = _
        rw [hfC, ihC]

/-- C4: for every source tree, the declaration registry returned by
injectComments has exactly one entry per declaration detected by the
line classifier over the yaml files of the tree — it equals the
specification-side registry, its size is the total detected-declaration
count, and (for an injective token supply) its tokens are pairwise
distinct; each entry records the file's path relative to the scanned
root, the zero-based line number, and the trimmed declaration text. The
registry is a value fixed when injectComments returns: the later stages
of the run consume it without producing a modified registry. The only
hypotheses are two facts about the uuid supply (tokens never contain the
suppression-marker text, and are pairwise distinct). -/
theorem injectComments_registry_exact (ids : Nat → Str)
    (tree : List (Str × Str))
    (hIdIgn : ∀ k, containsSub ignoreMarker (ids k) = false)
    (hInj : Function.Injective ids) :
    (injectComments ids tree).2 = (expectedTreeRegs ids 0 tree).1 ∧
    (injectComments ids tree).2.length = totalDecls tree ∧
    ((injectComments ids tree).2.map Prod.fst).Nodup := by
  have hR := (injectTreeAux_regs ids hIdIgn tree 0).1
  have hkeys : (injectComments ids tree).2.map Prod.fst =
      (List.range' 0 (totalDecls tree)).map ids := by
    show (injectTreeAux ids 0 tree).2.1.map Prod.fst = _
    rw [hR, expectedTreeRegs_keys]
  refine ⟨hR, ?_, ?_⟩
  · have := congrArg List.length hkeys
    simpa using this
  · rw [hkeys]
    exact (List.nodup_range' 0 (totalDecls tree)).map hInj

/-- Witness for C4 at a two-file tree: a yaml file with three
declarations — one of them trim-ending in the block-scalar indicator,
one suppressed by a preceding marker — and a non-yaml helper file. -/
theorem injectComments_registry_exact_witness :
    (injectComments witnessIds
        [("t.yaml".toList,
          "{{ if .a }} |\n# helmlint:ignore\n{{ if .b }}\n{{ if .c }}".toList),
         ("h.tpl".toList, "{{ if .d }}".toList)]).2 =
      (expectedTreeRegs witnessIds 0
        [("t.yaml".toList,
          "{{ if .a }} |\n# helmlint:ignore\n{{ if .b }}\n{{ if .c }}".toList),
         ("h.tpl".toList, "{{ if .d }}".toList)]).1 ∧
    (injectComments witnessIds
        [("t.yaml".toList,
          "{{ if .a }} |\n# helmlint:ignore\n{{ if .b }}\n{{ if .c }}".toList),
         ("h.tpl".toList, "{{ if .d }}".toList)]).2.length =
      totalDecls
        [("t.yaml".toList,
          "{{ if .a }} |\n# helmlint:ignore\n{{ if .b }}\n{{ if .c }}".toList),
         ("h.tpl".toList, "{{ if .d }}".toList)] ∧
    ((injectComments witnessIds
        [("t.yaml".toList,
          "{{ if .a }} |\n# helmlint:ignore\n{{ if .b }}\n{{ if .c }}".toList),
         ("h.tpl".toList, "{{ if .d }}".toList)]).2.map Prod.fst).Nodup :=
  injectComments_registry_exact witnessIds _ witnessIds_ign witnessIds_inj

/-! ## Coverage verification (claim C5) -/

/-- C5: in verification mode the run reports, for every registry entry
whose token is absent from the surviving set, exactly one failure
carrying the message built from the entry's file, line, and declaration
text — the failure list is exactly the uncovered entries mapped to their
messages, in registry order; a message is reported iff it comes from an
uncovered entry, the failure count equals the uncovered-entry count, and
entries whose token is in the surviving set produce nothing. -/
theorem verifyCoverage_reports_uncovered (ids : List (Str × DeclRef))
    (seen : List Str) :
    verifyCoverage ids seen =
      (ids.filter (fun p => !(seen.contains p.1))).map
        (fun p => coverageFailureMsg p.2) ∧
    (∀ msg, msg ∈ verifyCoverage ids seen ↔
      ∃ id d, (id, d) ∈ ids ∧ seen.contains id = false ∧
        msg = coverageFailureMsg d) ∧
    (verifyCoverage ids seen).length =
      (ids.filter (fun p => !(seen.contains p.1))).length ∧
    (reconcile false ids seen []).1 = verifyCoverage ids seen := by
  have hmain : verifyCoverage ids seen =
      (ids.filter (fun p => !(seen.contains p.1))).map
        (fun p => coverageFailureMsg p.2) := by
    induction ids with
    | nil => rfl
    | cons e rest ih =>
      rcases e with ⟨id, d⟩
      by_cases hmem : id ∈ seen <;>
        simp [verifyCoverage, List.filter_cons, hmem, ih]
  refine ⟨hmain, ?_, ?_, rfl⟩
  · intro msg
    rw [hmain]
    constructor
    · intro hm
      obtain ⟨p, hp, heq⟩ := List.mem_map.mp hm
      have hmem := List.mem_filter.mp hp
      refine ⟨p.1, p.2, ?_, ?_, heq.symm⟩
      · simpa using hmem.1
      · have h2 := hmem.2
        rwa [Bool.not_eq_true'] at h2
    · rintro ⟨id, d, hmem, habs, rfl⟩
      exact List.mem_map.mpr ⟨(id, d),
        List.mem_filter.mpr ⟨hmem, by simp only [habs, Bool.not_false]⟩, rfl⟩
  · rw [hmain, List.length_map]

/-! ## Exception injection (claim C6) -/

theorem lastNonWs_suppressionFor_cons (lines : List Str) (j : Nat) (old : Str) :
    lastNonWs (suppressionFor lines j ++ '\n' :: old) =
      match lastNonWs old with
      | some c => some c
      | none => some '}' := by
  rw [lastNonWs_append]
  have h1 : lastNonWs ('\n' :: old) =
      match lastNonWs old with
      | some c => some c
      | none => none := by
    rw [lastNonWs_cons]
    rcases lastNonWs old with _ | c <;> rfl
  rw [h1]
  rcases hid : lastNonWs old with _ | c
  · have h2 : lastNonWs (suppressionFor lines j) = some '}' := by
      unfold suppressionFor
      rw [lastNonWs_append]
      have : lastNonWs suppressionText = some '}' := by decide
      rw [this]
    simp only []
    rw [h2]
  · rfl

/-- Prepending the suppression comment never changes the pipe test of a
line. -/
theorem pipeLine_suppressed (lines : List Str) (j : Nat) (old : Str) :
    pipeLine (suppressionFor lines j ++ '\n' :: old) = pipeLine old := by
  rw [pipeLine_eq_lastNonWs, pipeLine_eq_lastNonWs,
    lastNonWs_suppressionFor_cons]
  rcases lastNonWs old with _ | c <;> rfl

theorem scanBack_congr_pipe (l1 l2 : List Str)
    (hp : ∀ i, pipeLine (l1.getD i []) = pipeLine (l2.getD i []))
    (hl : ∀ i, pipeLine (l2.getD i []) = true →
      leadingSpaces (l1.getD i []) = leadingSpaces (l2.getD i [])) :
    ∀ s, scanBack l1 s = scanBack l2 s := by
  intro s
  induction s with
  | zero =>
    unfold scanBack
    rw [hp 0]
    rcases h0 : pipeLine (l2.getD 0 []) with _ | _
    · simp
    · rw [hl 0 h0]
  | succ m ih =>
    unfold scanBack
    rw [hp (m + 1)]
    rcases h0 : pipeLine (l2.getD (m + 1) []) with _ | _
    · simp only [Bool.false_eq_true, if_false]
      exact ih
    · rw [hl (m + 1) h0]
      simp [ih]

theorem findIndentation_congr_pipe (l1 l2 : List Str) (s : Nat)
    (hp : ∀ i, pipeLine (l1.getD i []) = pipeLine (l2.getD i []))
    (hl : ∀ i, pipeLine (l2.getD i []) = true →
      leadingSpaces (l1.getD i []) = leadingSpaces (l2.getD i []))
    (hs : leadingSpaces (l1.getD s []) = leadingSpaces (l2.getD s [])) :
    findIndentation l1 s = findIndentation l2 s := by
  unfold findIndentation
  rw [scanBack_congr_pipe l1 l2 hp hl s, hs]

theorem applyExceptions_bridge (orig : List Str) :
    ∀ (defs : List DeclRef) (cur : List Str),
      (defs.map DeclRef.line).Nodup →
      (∀ d ∈ defs, d.line < orig.length ∧
        pipeLine (orig.getD d.line []) = false) →
      cur.length = orig.length →
      (∀ i, pipeLine (cur.getD i []) = pipeLine (orig.getD i [])) →
      (∀ i, pipeLine (orig.getD i []) = true →
        cur.getD i [] = orig.getD i []) →
      (∀ d ∈ defs, cur.getD d.line [] = orig.getD d.line []) →
      (applyExceptions cur defs).length = cur.length ∧
      (∀ i, (∀ d ∈ defs, d.line ≠ i) →
        (applyExceptions cur defs).getD i [] = cur.getD i []) ∧
      (∀ d ∈ defs, (applyExceptions cur defs).getD d.line [] =
        suppressionFor orig d.line ++ '\n' :: orig.getD d.line []) := by
  intro defs
  induction defs with
  | nil => intro cur _ _ _ _ _ _; exact ⟨rfl, fun _ _ => rfl, by simp⟩
  | cons d rest ih =>
    intro cur hNodup hdefs hlen hp hptrue hcurd
    have hdlt : d.line < orig.length :=
      (hdefs d (List.mem_cons_self _ _)).1
    have hdpipe : pipeLine (orig.getD d.line []) = false :=
      (hdefs d (List.mem_cons_self _ _)).2
    have hdcur : cur.getD d.line [] = orig.getD d.line [] :=
      hcurd d (List.mem_cons_self _ _)
    have hdcurlt : d.line < cur.length := by omega
    have hind : findIndentation cur d.line = findIndentation orig d.line := by
      apply findIndentation_congr_pipe cur orig d.line hp
      · intro i hi
        rw [hptrue i hi]
      · rw [hdcur]
    have hnew : List.replicate (findIndentation cur d.line) ' ' ++
        suppressionText ++ '\n' :: cur.getD d.line [] =
        suppressionFor orig d.line ++ '\n' :: orig.getD d.line [] := by
      rw [hind, hdcur]
      rfl
    have hstep : applyExceptions cur (d :: rest) =
        applyExceptions (cur.set d.line
          (suppressionFor orig d.line ++ '\n' :: orig.getD d.line [])) rest := by
      rw [applyExceptions, hnew]
    set cur' := cur.set d.line
      (suppressionFor orig d.line ++ '\n' :: orig.getD d.line []) with hcur'
    have hnodup' : (rest.map DeclRef.line).Nodup := by
      rw [List.map_cons] at hNodup
      exact hNodup.of_cons
    have hne : ∀ e ∈ rest, e.line ≠ d.line := by
      intro e he heq
      rw [List.map_cons, List.nodup_cons] at hNodup
      exact hNodup.1 (heq ▸ List.mem_map_of_mem DeclRef.line he)
    have hlen' : cur'.length = orig.length := by
      rw [hcur', List.length_set]; exact hlen
    have hp' : ∀ i, pipeLine (cur'.getD i []) = pipeLine (orig.getD i []) := by
      intro i
      rcases eq_or_ne d.line i with rfl | hnei
      · rw [hcur', getD_set_self' _ _ _ hdcurlt, pipeLine_suppressed]
      · rw [hcur', getD_set_ne' _ _ _ _ hnei]
        exact hp i
    have hptrue' : ∀ i, pipeLine (orig.getD i []) = true →
        cur'.getD i [] = orig.getD i [] := by
      intro i hi
      rcases eq_or_ne d.line i with rfl | hnei
      · rw [hi] at hdpipe
        exact absurd hdpipe (by simp)
      · rw [hcur', getD_set_ne' _ _ _ _ hnei]
        exact hptrue i hi
    have hcurd' : ∀ e ∈ rest, cur'.getD e.line [] = orig.getD e.line [] := by
      intro e he
      rw [hcur', getD_set_ne' _ _ _ _ (fun h => hne e he h.symm)]
      exact hcurd e (List.mem_cons_of_mem _ he)
    obtain ⟨iL, iF, iM⟩ := ih cur' hnodup'
      (fun e he => hdefs e (List.mem_cons_of_mem _ he)) hlen' hp' hptrue' hcurd'
    rw [hstep]
    refine ⟨by rw [iL, hcur', List.length_set], ?_, ?_⟩
    · intro i hi
      rw [iF i (fun e he => hi e (List.mem_cons_of_mem _ he)), hcur',
        getD_set_ne' _ _ _ _ (hi d (List.mem_cons_self _ _))]
    · intro e he
      rcases List.mem_cons.mp he with rfl | he2
      · rw [iF e.line (fun e' he' => hne e' he'), hcur',
          getD_set_self' _ _ _ hdcurlt]
      · exact iM e he2

theorem map_getD_range (l : List Str) :
    (List.range l.length).map (fun j => l.getD j []) = l := by
  apply List.ext_getElem
  · simp
  · intro i h1 h2
    rw [List.getElem_map, List.getElem_range,
      List.getD_eq_getElem _ _ (by simpa using h2)]

theorem nl_not_mem_suppressionFor (lines : List Str) (j : Nat) :
    '\n' ∉ suppressionFor lines j := by
  unfold suppressionFor
  intro hm
  rcases List.mem_append.mp hm with hm | hm
  · exact absurd (List.eq_of_mem_replicate hm) (by decide)
  · exact absurd hm (by decide)

theorem contains_eq_true_iff (l : List Nat) (a : Nat) :
    l.contains a = true ↔ a ∈ l := List.elem_iff

/-- Per-file summary of injectExceptions: re-splitting the rewritten
file yields the original lines with one suppression comment line
inserted directly before each listed declaration line. -/
theorem injectExceptionsFile_spec (content : Str) (defs : List DeclRef)
    (hNodup : (defs.map DeclRef.line).Nodup)
    (hdefs : ∀ d ∈ defs, d.line < (splitNl content).length ∧
      pipeLine ((splitNl content).getD d.line []) = false) :
    splitNl (injectExceptionsFile content defs) =
      (List.range (splitNl content).length).flatMap
        (blockOf (splitNl content) (defs.map DeclRef.line)) := by
  · obtain ⟨bL, bF, bM⟩ := applyExceptions_bridge (splitNl content) defs
      (splitNl content) hNodup hdefs rfl (fun i => rfl) (fun i _ => rfl)
      (fun d _ => rfl)
    have hnl : ∀ j, j < (splitNl content).length →
        '\n' ∉ (splitNl content).getD j [] := by
      intro j hj
      apply splitNl_elements_nlfree content
      rw [List.getD_eq_getElem _ _ hj]
      exact List.getElem_mem hj
    have hgetDfin : ∀ j, j < (splitNl content).length →
        (splitNl ((applyExceptions (splitNl content) defs).getD j []) =
          blockOf (splitNl content) (defs.map DeclRef.line) j) ∧
        NlShape ((applyExceptions (splitNl content) defs).getD j []) := by
      intro j hj
      by_cases hmem : j ∈ defs.map DeclRef.line
      · obtain ⟨d, hd, hdj⟩ := List.mem_map.mp hmem
        subst hdj
        constructor
        · unfold blockOf
          rw [if_pos ((contains_eq_true_iff _ _).mpr hmem), bM d hd,
            splitNl_append_nlfree _ _ (nl_not_mem_suppressionFor _ _),
            splitNl_nlfree _ (hnl _ hj)]
        · rw [bM d hd]
          exact Or.inr ⟨_, _, rfl, nl_not_mem_suppressionFor _ _, hnl _ hj⟩
      · have hF := bF j (fun d hd heq =>
          hmem (heq ▸ List.mem_map_of_mem DeclRef.line hd))
        constructor
        · unfold blockOf
          rw [if_neg (fun h => hmem ((contains_eq_true_iff _ _).mp h)), hF,
            splitNl_nlfree _ (hnl _ hj)]
        · rw [hF]
          exact Or.inl (hnl _ hj)
    have hne : applyExceptions (splitNl content) defs ≠ [] := by
      intro hnil
      have := bL
      rw [hnil] at this
      rcases hsp : splitNl content with _ | ⟨a, l⟩
      · exact splitNl_ne_nil content hsp
      · rw [hsp] at this
        simp at this
    have hshape : ∀ x ∈ applyExceptions (splitNl content) defs, NlShape x := by
      intro x hx
      obtain ⟨j, hj, hjx⟩ := List.getElem_of_mem hx
      have hjlt : j < (splitNl content).length := by
        have := bL
        omega
      have hxj : x = (applyExceptions (splitNl content) defs).getD j [] := by
        rw [List.getD_eq_getElem _ _ hj, hjx]
      rw [hxj]
      exact (hgetDfin j hjlt).2
    show splitNl (joinNl (applyExceptions (splitNl content) defs)) = _
    rw [splitNl_joinNl _ hne hshape]
    conv_lhs => rw [show applyExceptions (splitNl content) defs =
      (List.range (applyExceptions (splitNl content) defs).length).map
        (fun j => (applyExceptions (splitNl content) defs).getD j []) from
      (map_getD_range _).symm]
    rw [List.flatMap_map, bL]
    apply List.flatMap_congr
    intro j hj
    exact (hgetDfin j (by simpa using hj)).1

/-- C6, corrected: in exception mode, every uncovered declaration's line
gains a suppression comment immediately before it while every other line
is unchanged, but the comment's indentation is resolved against the
partially-rewritten line array, so it can deviate from the resolution a
marker insertion would use (and depends on the order the uncovered
declarations are processed in) when an uncovered declaration's own line
trim-ends in the block-scalar indicator. When no uncovered declaration
line trim-ends in the indicator, re-splitting the rewritten file yields
the original lines with one suppression line inserted directly before
each uncovered declaration line at the marker-equivalent indentation.
Files with no uncovered declarations are left untouched, the rewrite
applies to the tree the function is given (Lint passes the original
chart tree), and in this mode no coverage failure is reported. -/
theorem injectExceptions_blocks (content : Str) (defs : List DeclRef)
    (hNodup : (defs.map DeclRef.line).Nodup)
    (hdefs : ∀ d ∈ defs, d.line < (splitNl content).length ∧
      pipeLine ((splitNl content).getD d.line []) = false) :
    splitNl (injectExceptionsFile content defs) =
      (List.range (splitNl content).length).flatMap
        (blockOf (splitNl content) (defs.map DeclRef.line)) ∧
    (∀ ids seen (tree : List (Str × Str)) p c, (p, c) ∈ tree →
      ((uncovered ids seen).filter (fun d => d.file = p)).isEmpty = true →
      (p, c) ∈ injectExceptionsTree ids seen tree) ∧
    (∀ ids seen (tree : List (Str × Str)),
      (reconcile true ids seen tree).1 = [] ∧
      (reconcile true ids seen tree).2 = injectExceptionsTree ids seen tree) := by
  refine ⟨injectExceptionsFile_spec content defs hNodup hdefs, ?_,
    fun ids seen tree => ⟨rfl, rfl⟩⟩
  intro ids seen tree p c hm hempty
  unfold injectExceptionsTree
  apply List.mem_map.mpr
  refine ⟨(p, c), hm, ?_⟩
  simp only [hempty]
  rfl

/-- Witness for C6 at a file with one uncovered declaration under a
block scalar opener. -/
theorem injectExceptions_blocks_witness :
    splitNl (injectExceptionsFile "a: |\n  {{ if .x }}\nb: 2".toList
        [⟨"t.yaml".toList, 1, "{{ if .x }}".toList⟩]) =
      (List.range (splitNl "a: |\n  {{ if .x }}\nb: 2".toList).length).flatMap
        (blockOf (splitNl "a: |\n  {{ if .x }}\nb: 2".toList)
          ([⟨"t.yaml".toList, 1, "{{ if .x }}".toList⟩].map DeclRef.line)) :=
  (injectExceptions_blocks "a: |\n  {{ if .x }}\nb: 2".toList
    [⟨"t.yaml".toList, 1, "{{ if .x }}".toList⟩]
    (by decide) (by decide)).1

/-- C6 counterexample: an uncovered declaration whose own line trim-ends
in the block-scalar indicator is suppressed with a comment that itself
becomes the nearest indicator line of the evolving array, so the next
uncovered declaration's suppression comment is written at indentation 6
where the marker-equivalent resolution against the original lines gives
indentation 4 — the rewritten file differs from the claimed block
description. -/
theorem injectExceptions_pipe_cex :
    (∀ d ∈ [(⟨"t.yaml".toList, 0, "{{ if .a }} |".toList⟩ : DeclRef),
        ⟨"t.yaml".toList, 1, "{{ if .b }}".toList⟩],
      d.line < (splitNl "  {{ if .a }} |\n{{ if .b }}".toList).length) ∧
    splitNl (injectExceptionsFile "  {{ if .a }} |\n{{ if .b }}".toList
        [⟨"t.yaml".toList, 0, "{{ if .a }} |".toList⟩,
         ⟨"t.yaml".toList, 1, "{{ if .b }}".toList⟩]) ≠
      (List.range
          (splitNl "  {{ if .a }} |\n{{ if .b }}".toList).length).flatMap
        (blockOf (splitNl "  {{ if .a }} |\n{{ if .b }}".toList)
          ([(⟨"t.yaml".toList, 0, "{{ if .a }} |".toList⟩ : DeclRef),
            ⟨"t.yaml".toList, 1, "{{ if .b }}".toList⟩].map DeclRef.line)) ∧
    (splitNl (injectExceptionsFile "  {{ if .a }} |\n{{ if .b }}".toList
        [⟨"t.yaml".toList, 0, "{{ if .a }} |".toList⟩,
         ⟨"t.yaml".toList, 1, "{{ if .b }}".toList⟩])).getD 2 [] =
      List.replicate 6 ' ' ++ suppressionText ∧
    suppressionFor (splitNl "  {{ if .a }} |\n{{ if .b }}".toList) 1 =
      List.replicate 4 ' ' ++ suppressionText := by
  decide

/-! ## Round-trip stability of suppression (claim C7) -/

theorem nl_not_mem_suppLineInd (ind : Nat → Nat) (j : Nat) :
    '\n' ∉ suppLineInd ind j := by
  unfold suppLineInd
  intro hm
  rcases List.mem_append.mp hm with hm | hm
  · exact absurd (List.eq_of_mem_replicate hm) (by decide)
  · exact absurd hm (by decide)

/-- The per-file loop of injectExceptions, without any assumption on
block-scalar openers: each listed line gains an indented suppression
comment and a newline in front, for some indentation assignment (the one
the evolving-array resolution produced), and every other line is left
alone. -/
theorem applyExceptions_shape (orig : List Str) :
    ∀ (defs : List DeclRef) (cur : List Str),
      (defs.map DeclRef.line).Nodup →
      (∀ d ∈ defs, d.line < orig.length) →
      cur.length = orig.length →
      (∀ d ∈ defs, cur.getD d.line [] = orig.getD d.line []) →
      ∃ ind : Nat → Nat,
        (applyExceptions cur defs).length = cur.length ∧
        (∀ i, (∀ d ∈ defs, d.line ≠ i) →
          (applyExceptions cur defs).getD i [] = cur.getD i []) ∧
        (∀ d ∈ defs, (applyExceptions cur defs).getD d.line [] =
          suppLineInd ind d.line ++ '\n' :: orig.getD d.line []) := by
  intro defs
  induction defs with
  | nil =>
    intro cur _ _ _ _
    exact ⟨fun _ => 0, rfl, fun _ _ => rfl, by simp⟩
  | cons d rest ih =>
    intro cur hNodup hdefs hlen hcurd
    have hdlt : d.line < orig.length := hdefs d (List.mem_cons_self _ _)
    have hdcur : cur.getD d.line [] = orig.getD d.line [] :=
      hcurd d (List.mem_cons_self _ _)
    have hdcurlt : d.line < cur.length := by omega
    have hnew : List.replicate (findIndentation cur d.line) ' ' ++
        suppressionText ++ '\n' :: cur.getD d.line [] =
        suppLineInd (fun _ => findIndentation cur d.line) d.line ++
          '\n' :: orig.getD d.line [] := by
      rw [hdcur]
      rfl
    have hstep : applyExceptions cur (d :: rest) =
        applyExceptions (cur.set d.line
          (suppLineInd (fun _ => findIndentation cur d.line) d.line ++
            '\n' :: orig.getD d.line [])) rest := by
      rw [applyExceptions, hnew]
    set cur' := cur.set d.line
      (suppLineInd (fun _ => findIndentation cur d.line) d.line ++
        '\n' :: orig.getD d.line []) with hcur'
    have hnodup' : (rest.map DeclRef.line).Nodup := by
      rw [List.map_cons] at hNodup
      exact hNodup.of_cons
    have hne : ∀ e ∈ rest, e.line ≠ d.line := by
      intro e he heq
      rw [List.map_cons, List.nodup_cons] at hNodup
      exact hNodup.1 (heq ▸ List.mem_map_of_mem DeclRef.line he)
    have hlen' : cur'.length = orig.length := by
      rw [hcur', List.length_set]; exact hlen
    have hcurd' : ∀ e ∈ rest, cur'.getD e.line [] = orig.getD e.line [] := by
      intro e he
      rw [hcur', getD_set_ne' _ _ _ _ (fun h => hne e he h.symm)]
      exact hcurd e (List.mem_cons_of_mem _ he)
    obtain ⟨ind0, iL, iF, iM⟩ := ih cur' hnodup'
      (fun e he => hdefs e (List.mem_cons_of_mem _ he)) hlen' hcurd'
    refine ⟨fun j => if j = d.line then findIndentation cur d.line else ind0 j,
      ?_, ?_, ?_⟩
    · rw [hstep, iL, hcur', List.length_set]
    · intro i hi
      rw [hstep, iF i (fun e he => hi e (List.mem_cons_of_mem _ he)), hcur',
        getD_set_ne' _ _ _ _ (hi d (List.mem_cons_self _ _))]
    · intro e he
      rcases List.mem_cons.mp he with rfl | he2
      · rw [hstep, iF e.line (fun e' he' => hne e' he'), hcur',
          getD_set_self' _ _ _ hdcurlt]
        simp [suppLineInd]
      · rw [hstep, iM e he2]
        simp only [suppLineInd]
        rw [if_neg (hne e he2)]

/-- Per-file summary of injectExceptions without any assumption on
block-scalar openers: re-splitting the rewritten file yields the
original lines with one suppression comment line, at some indentation,
inserted directly before each listed declaration line. -/
theorem injectExceptionsFile_shape (content : Str) (defs : List DeclRef)
    (hNodup : (defs.map DeclRef.line).Nodup)
    (hdefs : ∀ d ∈ defs, d.line < (splitNl content).length) :
    ∃ ind : Nat → Nat,
      splitNl (injectExceptionsFile content defs) =
        (List.range (splitNl content).length).flatMap
          (blockOfInd (splitNl content) (defs.map DeclRef.line) ind) := by
  obtain ⟨ind, bL, bF, bM⟩ := applyExceptions_shape (splitNl content) defs
    (splitNl content) hNodup hdefs rfl (fun d _ => rfl)
  refine ⟨ind, ?_⟩
  have hnl : ∀ j, j < (splitNl content).length →
      '\n' ∉ (splitNl content).getD j [] := by
    intro j hj
    apply splitNl_elements_nlfree content
    rw [List.getD_eq_getElem _ _ hj]
    exact List.getElem_mem hj
  have hgetDfin : ∀ j, j < (splitNl content).length →
      (splitNl ((applyExceptions (splitNl content) defs).getD j []) =
        blockOfInd (splitNl content) (defs.map DeclRef.line) ind j) ∧
      NlShape ((applyExceptions (splitNl content) defs).getD j []) := by
    intro j hj
    by_cases hmem : j ∈ defs.map DeclRef.line
    · obtain ⟨d, hd, hdj⟩ := List.mem_map.mp hmem
      subst hdj
      constructor
      · unfold blockOfInd
        rw [if_pos ((contains_eq_true_iff _ _).mpr hmem), bM d hd,
          splitNl_append_nlfree _ _ (nl_not_mem_suppLineInd _ _),
          splitNl_nlfree _ (hnl _ hj)]
      · rw [bM d hd]
        exact Or.inr ⟨_, _, rfl, nl_not_mem_suppLineInd _ _, hnl _ hj⟩
    · have hF := bF j (fun d hd heq =>
        hmem (heq ▸ List.mem_map_of_mem DeclRef.line hd))
      constructor
      · unfold blockOfInd
        rw [if_neg (fun h => hmem ((contains_eq_true_iff _ _).mp h)), hF,
          splitNl_nlfree _ (hnl _ hj)]
      · rw [hF]
        exact Or.inl (hnl _ hj)
  have hne : applyExceptions (splitNl content) defs ≠ [] := by
    intro hnil
    have := bL
    rw [hnil] at this
    rcases hsp : splitNl content with _ | ⟨a, l⟩
    · exact splitNl_ne_nil content hsp
    · rw [hsp] at this
      simp at this
  have hshape : ∀ x ∈ applyExceptions (splitNl content) defs, NlShape x := by
    intro x hx
    obtain ⟨j, hj, hjx⟩ := List.getElem_of_mem hx
    have hjlt : j < (splitNl content).length := by
      have := bL
      omega
    have hxj : x = (applyExceptions (splitNl content) defs).getD j [] := by
      rw [List.getD_eq_getElem _ _ hj, hjx]
    rw [hxj]
    exact (hgetDfin j hjlt).2
  show splitNl (joinNl (applyExceptions (splitNl content) defs)) = _
  rw [splitNl_joinNl _ hne hshape]
  conv_lhs => rw [show applyExceptions (splitNl content) defs =
    (List.range (applyExceptions (splitNl content) defs).length).map
      (fun j => (applyExceptions (splitNl content) defs).getD j []) from
    (map_getD_range _).symm]
  rw [List.flatMap_map, bL]
  apply List.flatMap_congr
  intro j hj
  exact (hgetDfin j (by simpa using hj)).1

theorem filter_lt_succ_nodup (dlines : List Nat) (hnd : dlines.Nodup) (j : Nat) :
    (dlines.filter (fun l => l < j + 1)).length =
      (dlines.filter (fun l => l < j)).length + (if j ∈ dlines then 1 else 0) := by
  induction dlines with
  | nil => simp
  | cons d rest ih =>
    rw [List.nodup_cons] at hnd
    have ihr := ih hnd.2
    rw [List.filter_cons, List.filter_cons]
    by_cases hdj : d = j
    · subst hdj
      rw [if_pos (by simp), if_neg (by simp), List.length_cons, ihr,
        if_neg hnd.1, if_pos (List.mem_cons_self d rest)]
    · have hdec : (decide (d < j + 1)) = (decide (d < j)) := by
        by_cases h : d < j
        · simp [h, Nat.lt_succ_of_lt h]
        · have h2 : ¬ d < j + 1 := by omega
          simp [h, h2]
      have hmem : (j ∈ d :: rest) ↔ (j ∈ rest) := by
        constructor
        · intro h
          rcases List.mem_cons.mp h with h | h
          · exact absurd h.symm hdj
          · exact h
        · exact List.mem_cons_of_mem d
      have hite : (if j ∈ d :: rest then 1 else 0) =
          (if j ∈ rest then 1 else 0) := if_congr hmem rfl rfl
      rw [hdec, hite]
      rcases hd2 : decide (d < j) with _ | _
      · simp only [Bool.false_eq_true, if_false]
        exact ihr
      · simp only [if_true, List.length_cons]
        rw [ihr]
        omega

theorem filter_le_eq_lt_add (dlines : List Nat) (hnd : dlines.Nodup) (j : Nat) :
    (dlines.filter (fun l => l ≤ j)).length =
      (dlines.filter (fun l => l < j)).length + (if j ∈ dlines then 1 else 0) := by
  have : (dlines.filter (fun l => l ≤ j)) = (dlines.filter (fun l => l < j + 1)) := by
    apply List.filter_congr
    intro x _
    simp [Nat.lt_succ_iff]
  rw [this, filter_lt_succ_nodup dlines hnd j]

theorem blocks_length (lines : List Str) (dlines : List Nat)
    (ind : Nat → Nat) (hnd : dlines.Nodup) :
    ∀ j, ((List.range j).flatMap (blockOfInd lines dlines ind)).length =
      j + (dlines.filter (fun l => l < j)).length := by
  intro j
  induction j with
  | zero => simp
  | succ m ih =>
    rw [List.range_succ, List.flatMap_append, List.length_append, ih,
      filter_lt_succ_nodup dlines hnd m]
    have hblock : ((([m] : List Nat)).flatMap
        (blockOfInd lines dlines ind)).length =
        if m ∈ dlines then 2 else 1 := by
      rw [List.flatMap_cons, List.flatMap_nil, List.append_nil]
      unfold blockOfInd
      by_cases hm : m ∈ dlines
      · rw [if_pos ((contains_eq_true_iff _ _).mpr hm), if_pos hm]
        rfl
      · rw [if_neg (fun h => hm ((contains_eq_true_iff _ _).mp h)), if_neg hm]
        rfl
    rw [hblock]
    by_cases hm : m ∈ dlines <;> simp [hm] <;> omega

theorem range_decomp (n j : Nat) (hj : j < n) :
    List.range n = List.range j ++ j :: List.range' (j + 1) (n - j - 1) := by
  rw [List.range_eq_range' n, List.range_eq_range' j]
  conv_lhs => rw [show n = (n - j) + j from by omega]
  rw [← List.range'_append_1 0 j (n - j), Nat.zero_add]
  congr 1
  rw [show n - j = (n - j - 1) + 1 from by omega, List.range'_succ]
  simp

theorem newAll_getD_at (lines : List Str) (dlines : List Nat)
    (ind : Nat → Nat) (n j k : Nat)
    (hj : j < n) (hk : k < (blockOfInd lines dlines ind j).length) :
    ((List.range n).flatMap (blockOfInd lines dlines ind)).getD
        (((List.range j).flatMap (blockOfInd lines dlines ind)).length + k) [] =
      (blockOfInd lines dlines ind j).getD k [] := by
  rw [range_decomp n j hj, List.flatMap_append, List.flatMap_cons]
  rw [List.getD_append_right _ _ _ _ (Nat.le_add_right _ _)]
  rw [Nat.add_sub_cancel_left]
  rw [List.getD_append _ _ _ _ hk]

theorem blockOfInd_not_mem (lines : List Str) (dlines : List Nat)
    (ind : Nat → Nat) (j : Nat) (h : j ∉ dlines) :
    blockOfInd lines dlines ind j = [lines.getD j []] := by
  unfold blockOfInd
  rw [if_neg (fun hc => h ((contains_eq_true_iff _ _).mp hc))]

theorem blockOfInd_mem (lines : List Str) (dlines : List Nat)
    (ind : Nat → Nat) (j : Nat) (h : j ∈ dlines) :
    blockOfInd lines dlines ind j =
      [suppLineInd ind j, lines.getD j []] := by
  unfold blockOfInd
  rw [if_pos ((contains_eq_true_iff _ _).mpr h)]

theorem newPos_eq_prefixLen (lines : List Str) (dlines : List Nat)
    (ind : Nat → Nat) (hnd : dlines.Nodup) (j : Nat) (h : j ∉ dlines) :
    newPos dlines j =
      ((List.range j).flatMap (blockOfInd lines dlines ind)).length := by
  rw [newPos, blocks_length lines dlines ind hnd j,
    filter_le_eq_lt_add dlines hnd j, if_neg h]
  omega

theorem newPos_eq_prefixLen_succ (lines : List Str) (dlines : List Nat)
    (ind : Nat → Nat) (hnd : dlines.Nodup) (j : Nat) (h : j ∈ dlines) :
    newPos dlines j =
      ((List.range j).flatMap (blockOfInd lines dlines ind)).length + 1 := by
  rw [newPos, blocks_length lines dlines ind hnd j,
    filter_le_eq_lt_add dlines hnd j, if_pos h]
  omega

/-- The original line j sits at its shifted position in the rewritten
line list. -/
theorem newAll_getD_newPos (lines : List Str) (dlines : List Nat)
    (ind : Nat → Nat) (hnd : dlines.Nodup) (n j : Nat) (hj : j < n) :
    ((List.range n).flatMap (blockOfInd lines dlines ind)).getD
        (newPos dlines j) [] = lines.getD j [] := by
  by_cases hmem : j ∈ dlines
  · rw [newPos_eq_prefixLen_succ lines dlines ind hnd j hmem,
      newAll_getD_at lines dlines ind n j 1 hj
        (by rw [blockOfInd_mem lines dlines ind j hmem]; simp),
      blockOfInd_mem lines dlines ind j hmem]
    rfl
  · rw [newPos_eq_prefixLen lines dlines ind hnd j hmem,
      ← Nat.add_zero
        (((List.range j).flatMap (blockOfInd lines dlines ind)).length),
      newAll_getD_at lines dlines ind n j 0 hj
        (by rw [blockOfInd_not_mem lines dlines ind j hmem]; simp),
      blockOfInd_not_mem lines dlines ind j hmem]
    rfl

/-- A suppressed line's shifted position is directly preceded by its
suppression comment. -/
theorem newAll_getD_newPos_pred (lines : List Str) (dlines : List Nat)
    (ind : Nat → Nat) (hnd : dlines.Nodup) (n j : Nat) (hj : j < n)
    (hmem : j ∈ dlines) :
    ((List.range n).flatMap (blockOfInd lines dlines ind)).getD
        (newPos dlines j - 1) [] = suppLineInd ind j := by
  rw [newPos_eq_prefixLen_succ lines dlines ind hnd j hmem, Nat.add_sub_cancel,
    ← Nat.add_zero
      (((List.range j).flatMap (blockOfInd lines dlines ind)).length),
    newAll_getD_at lines dlines ind n j 0 hj
      (by rw [blockOfInd_mem lines dlines ind j hmem]; simp),
    blockOfInd_mem lines dlines ind j hmem]
  rfl

/-- Directly before the shifted position of an unsuppressed line j + 1
sits the original line j. -/
theorem newAll_getD_pred_not_mem (lines : List Str) (dlines : List Nat)
    (ind : Nat → Nat) (hnd : dlines.Nodup) (n j : Nat) (hj : j + 1 < n)
    (hmem : j + 1 ∉ dlines) :
    ((List.range n).flatMap (blockOfInd lines dlines ind)).getD
        (newPos dlines (j + 1) - 1) [] = lines.getD j [] := by
  have hpfx : ((List.range (j + 1)).flatMap (blockOfInd lines dlines ind)) =
      ((List.range j).flatMap (blockOfInd lines dlines ind)) ++
        blockOfInd lines dlines ind j := by
    rw [List.range_succ, List.flatMap_append, List.flatMap_cons,
      List.flatMap_nil, List.append_nil]
  rw [newPos_eq_prefixLen lines dlines ind hnd (j + 1) hmem, hpfx]
  by_cases hm : j ∈ dlines
  · rw [blockOfInd_mem lines dlines ind j hm]
    have hlen : (((List.range j).flatMap (blockOfInd lines dlines ind)) ++
        [suppLineInd ind j, lines.getD j []]).length =
        ((List.range j).flatMap (blockOfInd lines dlines ind)).length + 2 := by
      simp
    rw [hlen,
      show ((List.range j).flatMap (blockOfInd lines dlines ind)).length +
        2 - 1 =
        ((List.range j).flatMap (blockOfInd lines dlines ind)).length + 1
        by omega,
      newAll_getD_at lines dlines ind n j 1 (by omega)
        (by rw [blockOfInd_mem lines dlines ind j hm]; simp),
      blockOfInd_mem lines dlines ind j hm]
    rfl
  · rw [blockOfInd_not_mem lines dlines ind j hm]
    have hlen : (((List.range j).flatMap (blockOfInd lines dlines ind)) ++
        [lines.getD j []]).length =
        ((List.range j).flatMap (blockOfInd lines dlines ind)).length + 1 := by
      simp
    rw [hlen, Nat.add_sub_cancel,
      ← Nat.add_zero
        (((List.range j).flatMap (blockOfInd lines dlines ind)).length),
      newAll_getD_at lines dlines ind n j 0 (by omega)
        (by rw [blockOfInd_not_mem lines dlines ind j hm]; simp),
      blockOfInd_not_mem lines dlines ind j hm]
    rfl

theorem containsSub_ignore_suppLineInd (ind : Nat → Nat) (j : Nat) :
    containsSub ignoreMarker (suppLineInd ind j) = true := by
  rw [containsSub_iff_isInf]
  have h : ignoreMarker <:+: suppressionText :=
    (containsSub_iff_isInf _ _).mp (by decide)
  obtain ⟨s, t, hst⟩ := h
  refine ⟨List.replicate (ind j) ' ' ++ s, t, ?_⟩
  rw [suppLineInd, ← hst]
  simp [List.append_assoc]

/-- Re-running the classifier after exception injection rejects every
suppressed declaration: the suppression comment directly above it
carries the marker text, whatever its indentation. -/
theorem declGuard_suppressed (lines : List Str) (dlines : List Nat)
    (ind : Nat → Nat) (hnd : dlines.Nodup) (n j : Nat) (hj : j < n)
    (hmem : j ∈ dlines) :
    declGuard ((List.range n).flatMap (blockOfInd lines dlines ind))
      (newPos dlines j) = false := by
  have hpos := newPos_eq_prefixLen_succ lines dlines ind hnd j hmem
  have hpred := newAll_getD_newPos_pred lines dlines ind hnd n j hj hmem
  rw [hpos] at hpred
  rw [Nat.add_sub_cancel] at hpred
  rw [hpos, declGuard, hpred, containsSub_ignore_suppLineInd]
  simp

/-- Re-running the classifier after exception injection keeps every
unsuppressed line's verdict, at its shifted position. -/
theorem declGuard_shifted (lines : List Str) (dlines : List Nat)
    (ind : Nat → Nat) (hnd : dlines.Nodup) (n j : Nat) (hj : j < n)
    (hmem : j ∉ dlines) :
    declGuard ((List.range n).flatMap (blockOfInd lines dlines ind))
      (newPos dlines j) = declGuard lines j := by
  cases j with
  | zero =>
    have h0 : newPos dlines 0 = 0 := by
      rw [newPos_eq_prefixLen lines dlines ind hnd 0 hmem]
      simp
    have hget := newAll_getD_newPos lines dlines ind hnd n 0 hj
    rw [h0] at hget
    rw [h0, declGuard, declGuard, hget]
  | succ m =>
    have hpos := newPos_eq_prefixLen lines dlines ind hnd (m + 1) hmem
    have hlenP := blocks_length lines dlines ind hnd (m + 1)
    have hgt : 1 ≤ ((List.range (m + 1)).flatMap
        (blockOfInd lines dlines ind)).length := by
      omega
    have hsucc : newPos dlines (m + 1) =
        (((List.range (m + 1)).flatMap
          (blockOfInd lines dlines ind)).length - 1) + 1 := by
      omega
    rw [hsucc, declGuard, declGuard,
      show (((List.range (m + 1)).flatMap
          (blockOfInd lines dlines ind)).length - 1) + 1 =
        newPos dlines (m + 1) from by omega,
      show ((List.range (m + 1)).flatMap
          (blockOfInd lines dlines ind)).length - 1 =
        newPos dlines (m + 1) - 1 from by omega,
      newAll_getD_newPos lines dlines ind hnd n (m + 1) hj,
      newAll_getD_pred_not_mem lines dlines ind hnd n m hj hmem]

theorem expectedRegs_line_mem (f : Str) (ids : Nat → Str) (orig : List Str) :
    ∀ (ds : List Nat) (c : Nat) (e : Str × DeclRef),
      e ∈ expectedRegs f ids orig ds c → e.2.line ∈ ds := by
  intro ds
  induction ds with
  | nil => intro c e he; exact absurd he (List.not_mem_nil e)
  | cons i rest ih =>
    intro c e he
    rcases List.mem_cons.mp he with rfl | he2
    · exact List.mem_cons_self _ _
    · exact List.mem_cons_of_mem _ (ih (c + 1) e he2)

theorem expectedRegs_mem_of_line (f : Str) (ids : Nat → Str) (orig : List Str) :
    ∀ (ds : List Nat) (c : Nat) (i : Nat), i ∈ ds →
      ∃ e ∈ expectedRegs f ids orig ds c, e.2.line = i := by
  intro ds
  induction ds with
  | nil => intro c i hi; exact absurd hi (List.not_mem_nil i)
  | cons i0 rest ih =>
    intro c i hi
    rcases List.mem_cons.mp hi with rfl | hi2
    · exact ⟨(ids c, ⟨f, i, trimSpace (orig.getD i [])⟩),
        List.mem_cons_self _ _, rfl⟩
    · obtain ⟨e, he, heq⟩ := ih (c + 1) i hi2
      exact ⟨e, List.mem_cons_of_mem _ he, heq⟩

/-- C7: for every file content and every list of uncovered declarations
with distinct in-range lines, after injectExceptions rewrites them,
re-running injectComments on the rewritten file registers no entry at
any suppressed declaration's (shifted) line — the suppression comment
written directly above it trips the preceding-line check whatever
indentation it was written at — while every declaration that was not
rewritten is still registered at its shifted line. The only other
hypothesis is that the token supply never contains the
suppression-marker text, which holds for every uuid. -/
theorem suppression_roundtrip (content : Str) (defs : List DeclRef)
    (f : Str) (ids : Nat → Str) (ctr : Nat)
    (hNodup : (defs.map DeclRef.line).Nodup)
    (hdefs : ∀ d ∈ defs, d.line < (splitNl content).length)
    (hIdIgn : ∀ k, containsSub ignoreMarker (ids k) = false) :
    (∀ d ∈ defs, ∀ e ∈ (injectFileContent f ids ctr
        (injectExceptionsFile content defs)).2.1,
      e.2.line ≠ newPos (defs.map DeclRef.line) d.line) ∧
    (∀ j, j < (splitNl content).length → j ∉ defs.map DeclRef.line →
      declGuard (splitNl content) j = true →
      ∃ e ∈ (injectFileContent f ids ctr
          (injectExceptionsFile content defs)).2.1,
        e.2.line = newPos (defs.map DeclRef.line) j) := by
  obtain ⟨ind, hblocks⟩ := injectExceptionsFile_shape content defs hNodup hdefs
  obtain ⟨hR, -⟩ := injectFile_regs f ids ctr
    (injectExceptionsFile content defs) hIdIgn
  constructor
  · intro d hd e he heq
    have hline := expectedRegs_line_mem f ids _ _ _ e (hR ▸ he)
    have hguard : declGuard (splitNl (injectExceptionsFile content defs))
        e.2.line = true := by
      have := List.mem_filter.mp (by rw [detectedIdxs] at hline; exact hline)
      simpa using this.2
    rw [heq, hblocks] at hguard
    rw [declGuard_suppressed (splitNl content) (defs.map DeclRef.line) ind
      hNodup (splitNl content).length d.line (hdefs d hd)
      (List.mem_map_of_mem DeclRef.line hd)] at hguard
    exact absurd hguard (by simp)
  · intro j hj hjmem hjguard
    have hguard : declGuard (splitNl (injectExceptionsFile content defs))
        (newPos (defs.map DeclRef.line) j) = true := by
      rw [hblocks, declGuard_shifted (splitNl content) (defs.map DeclRef.line)
        ind hNodup (splitNl content).length j hj hjmem]
      exact hjguard
    have hbound : newPos (defs.map DeclRef.line) j <
        (splitNl (injectExceptionsFile content defs)).length := by
      rw [hblocks, blocks_length (splitNl content) (defs.map DeclRef.line)
        ind hNodup (splitNl content).length]
      have hle : ((defs.map DeclRef.line).filter (fun l => l ≤ j)).length ≤
          (defs.map DeclRef.line).length := List.length_filter_le _ _
      have hall : ((defs.map DeclRef.line).filter
          (fun l => l < (splitNl content).length)).length =
          (defs.map DeclRef.line).length := by
        rw [List.filter_eq_self.mpr]
        intro l hl
        obtain ⟨d, hd, rfl⟩ := List.mem_map.mp hl
        simpa using hdefs d hd
      rw [newPos, hall]
      omega
    have hds : newPos (defs.map DeclRef.line) j ∈
        detectedIdxs (splitNl (injectExceptionsFile content defs)) := by
      rw [detectedIdxs]
      apply List.mem_filter.mpr
      exact ⟨List.mem_range.mpr hbound, by simpa using hguard⟩
    obtain ⟨e, he, heq⟩ := expectedRegs_mem_of_line f ids
      (splitNl (injectExceptionsFile content defs)) _ ctr _ hds
    exact ⟨e, hR ▸ he, heq⟩

/-- Witness for C7: a file opening with a block scalar, whose suppressed
declaration itself trim-ends in the indicator, followed by a second
declaration that stays registered. -/
theorem suppression_roundtrip_witness :
    (∀ d ∈ [(⟨"t.yaml".toList, 1, "{{ if .a }} |".toList⟩ : DeclRef)],
      ∀ e ∈ (injectFileContent "t.yaml".toList witnessIds 0
          (injectExceptionsFile "a: |\n{{ if .a }} |\n{{ if .b }}".toList
            [⟨"t.yaml".toList, 1, "{{ if .a }} |".toList⟩])).2.1,
      e.2.line ≠ newPos ([(⟨"t.yaml".toList, 1, "{{ if .a }} |".toList⟩ :
        DeclRef)].map DeclRef.line) d.line) ∧
    (∀ j, j < (splitNl "a: |\n{{ if .a }} |\n{{ if .b }}".toList).length →
      j ∉ [(⟨"t.yaml".toList, 1, "{{ if .a }} |".toList⟩ : DeclRef)].map
        DeclRef.line →
      declGuard (splitNl "a: |\n{{ if .a }} |\n{{ if .b }}".toList) j = true →
      ∃ e ∈ (injectFileContent "t.yaml".toList witnessIds 0
          (injectExceptionsFile "a: |\n{{ if .a }} |\n{{ if .b }}".toList
            [⟨"t.yaml".toList, 1, "{{ if .a }} |".toList⟩])).2.1,
        e.2.line = newPos ([(⟨"t.yaml".toList, 1, "{{ if .a }} |".toList⟩ :
          DeclRef)].map DeclRef.line) j) :=
  suppression_roundtrip "a: |\n{{ if .a }} |\n{{ if .b }}".toList
    [⟨"t.yaml".toList, 1, "{{ if .a }} |".toList⟩] "t.yaml".toList witnessIds 0
    (by decide) (by decide) witnessIds_ign

/-! ## The marker scanner (claim C8) -/

/-- C8 counterexample: a rendered line that merely contains the marker
text mid-line makes the scanner record the whole trimmed line, not the
token, so the token is absent from the surviving set. -/
theorem discoverComments_midline_cex :
    containsSub (markerPrefixStr ++ ['T']) "x# helmlint: T".toList = true ∧
    discoverComments [("f.yaml".toList, "x# helmlint: T".toList)] =
      ["x# helmlint: T".toList] ∧
    (discoverComments [("f.yaml".toList, "x# helmlint: T".toList)]).contains
      ['T'] = false := by
  refine ⟨by decide, by decide, by decide⟩

theorem trimSpace_isInf (s : Str) : trimSpace s <:+: s := by
  have h1 : s.dropWhile isUnicodeSpace <:+ s := List.dropWhile_suffix _
  have h2 : trimSpace s <+: s.dropWhile isUnicodeSpace := by
    unfold trimSpace
    rw [← List.reverse_suffix]
    simp only [List.reverse_reverse]
    exact List.dropWhile_suffix _
  exact List.IsInfix.trans h2.isInfix h1.isInfix

theorem discoverLines_mem (ls : List Str) (line : Str) (hm : line ∈ ls)
    (hc : containsSub markerPrefixStr line = true) :
    trimPrefixStr (trimSpace line) markerPrefixStr ∈ discoverLines ls := by
  induction ls with
  | nil => exact absurd hm (List.not_mem_nil line)
  | cons l rest ih =>
    rcases List.mem_cons.mp hm with rfl | hm2
    · rw [discoverLines, if_pos hc]
      exact List.mem_cons_self _ _
    · rw [discoverLines]
      by_cases hcl : containsSub markerPrefixStr l = true
      · rw [if_pos hcl]
        exact List.mem_cons_of_mem _ (ih hm2)
      · rw [if_neg hcl]
        exact ih hm2

theorem discoverComments_file_mem (tree : List (Str × Str)) (p content : Str)
    (hm : (p, content) ∈ tree) (hy : isYamlName p = true) (x : Str)
    (hx : x ∈ discoverLines (scanLines content)) :
    x ∈ discoverComments tree := by
  induction tree with
  | nil => exact absurd hm (List.not_mem_nil _)
  | cons fc rest ih =>
    rcases fc with ⟨q, c2⟩
    rw [discoverComments]
    rcases List.mem_cons.mp hm with heq | hm2
    · rcases Prod.mk.injEq .. ▸ heq with ⟨rfl, rfl⟩
      rw [if_pos hy]
      exact List.mem_append.mpr (Or.inl hx)
    · by_cases hy2 : isYamlName q = true
      · rw [if_pos hy2]
        exact List.mem_append.mpr (Or.inr (ih hm2))
      · rw [if_neg hy2]
        exact ih hm2

/-- C8 (amended): the scanner records the text after the marker prefix
of a trimmed line; a token X is guaranteed to be in the surviving set
when some scanned line of a yaml file, after trimming, is exactly the
marker prefix followed by X. The scanner is a pure function of the
scanned tree and never rewrites it. -/
theorem discoverComments_records_trimmed_tokens (tree : List (Str × Str))
    (p content X : Str) (hm : (p, content) ∈ tree)
    (hy : isYamlName p = true)
    (hline : ∃ line ∈ scanLines content,
      trimSpace line = markerPrefixStr ++ X) :
    X ∈ discoverComments tree := by
  obtain ⟨line, hlm, hls⟩ := hline
  have hcontains : containsSub markerPrefixStr line = true := by
    rw [containsSub_iff_isInf]
    have h1 : markerPrefixStr <:+: trimSpace line := by
      rw [hls]
      exact (List.prefix_append _ _).isInfix
    exact h1.trans (trimSpace_isInf line)
  have hrec : trimPrefixStr (trimSpace line) markerPrefixStr = X := by
    rw [trimPrefixStr, hls,
      if_pos (List.isPrefixOf_iff_prefix.mpr (List.prefix_append _ _))]
    exact List.drop_left _ _
  have := discoverLines_mem (scanLines content) line hlm hcontains
  rw [hrec] at this
  exact discoverComments_file_mem tree p content hm hy X this

/-- Witness for the amended C8 at a concrete rendered file. -/
theorem discoverComments_records_trimmed_tokens_witness :
    "tok".toList ∈ discoverComments
      [("a.yaml".toList, "  # helmlint: tok\nkind: x".toList)] :=
  discoverComments_records_trimmed_tokens
    [("a.yaml".toList, "  # helmlint: tok\nkind: x".toList)]
    "a.yaml".toList "  # helmlint: tok\nkind: x".toList "tok".toList
    (by decide) (by decide) (by decide)

/-! ## Extension filtering (claim C10) -/

theorem injectTreeAux_filter_regs (ids : Nat → Str) :
    ∀ (tree : List (Str × Str)) (ctr : Nat),
      (injectTreeAux ids ctr tree).2.1 =
        (injectTreeAux ids ctr (tree.filter (fun f => isYamlName f.1))).2.1 ∧
      (injectTreeAux ids ctr tree).2.2 =
        (injectTreeAux ids ctr (tree.filter (fun f => isYamlName f.1))).2.2 := by
  intro tree
  induction tree with
  | nil => intro ctr; exact ⟨rfl, rfl⟩
  | cons fc rest ih =>
    intro ctr
    rcases fc with ⟨p, c⟩
    rw [List.filter_cons]
    rcases hy : isYamlName p with _ | _
    · simp only [Bool.false_eq_true, if_false]
      rw [injectTreeAux]
      rw [hy]
      simp only [Bool.false_eq_true, if_false]
      exact ih ctr
    · simp only [if_true]
      rw [injectTreeAux, injectTreeAux]
      rw [hy]
      simp only [if_true]
      obtain ⟨h1, h2⟩ := ih (injectFileContent p ids ctr c).2.2
      exact ⟨by rw [h1], h2⟩

theorem injectTreeAux_nonyaml_frame (ids : Nat → Str) :
    ∀ (tree : List (Str × Str)) (ctr : Nat),
      (injectTreeAux ids ctr tree).1.length = tree.length ∧
      (∀ k, isYamlName (tree.getD k ([], [])).1 = false →
        (injectTreeAux ids ctr tree).1.getD k ([], []) =
          tree.getD k ([], [])) := by
  intro tree
  induction tree with
  | nil => intro ctr; exact ⟨rfl, fun k _ => rfl⟩
  | cons fc rest ih =>
    intro ctr
    rcases fc with ⟨p, c⟩
    rw [injectTreeAux]
    rcases hy : isYamlName p with _ | _
    · simp only [Bool.false_eq_true, if_false]
      refine ⟨by simp [(ih ctr).1], ?_⟩
      intro k hk
      cases k with
      | zero => rfl
      | succ m =>
        show (injectTreeAux ids ctr rest).1.getD m ([], []) =
          rest.getD m ([], [])
        exact (ih ctr).2 m hk
    · simp only [if_true]
      refine ⟨by simp [(ih (injectFileContent p ids ctr c).2.2).1], ?_⟩
      intro k hk
      cases k with
      | zero => exact absurd hy (by rw [show (((p, c) :: rest).getD 0
          ([], [])).1 = p from rfl] at hk; rw [hk]; simp)
      | succ m =>
        show (injectTreeAux ids (injectFileContent p ids ctr c).2.2 rest).1.getD
          m ([], []) = rest.getD m ([], [])
        exact (ih (injectFileContent p ids ctr c).2.2).2 m hk

theorem discoverComments_filter :
    ∀ (tree : List (Str × Str)),
      discoverComments tree =
        discoverComments (tree.filter (fun f => isYamlName f.1)) := by
  intro tree
  induction tree with
  | nil => rfl
  | cons fc rest ih =>
    rcases fc with ⟨p, c⟩
    rw [List.filter_cons]
    rcases hy : isYamlName p with _ | _
    · simp only [Bool.false_eq_true, if_false]
      rw [discoverComments, hy]
      simp only [Bool.false_eq_true, if_false]
      exact ih
    · simp only [if_true]
      rw [discoverComments, discoverComments, hy]
      simp only [if_true]
      rw [ih]

/-- C10: both the marker injector and the marker scanner visit only
files whose name ends in ".yaml": injectComments keeps every other file
byte-for-byte unchanged and its registry equals the registry computed
from the yaml files alone (so a non-yaml file never contributes an
entry, even if it contains an if-opening tag), and discoverComments
equals the scan of the yaml files alone (so a non-yaml file never
contributes a surviving token, even if it contains marker text). -/
theorem yaml_extension_filtering (ids : Nat → Str) (tree : List (Str × Str)) :
    (injectComments ids tree).1.length = tree.length ∧
    (∀ k, isYamlName (tree.getD k ([], [])).1 = false →
      (injectComments ids tree).1.getD k ([], []) = tree.getD k ([], [])) ∧
    (injectComments ids tree).2 =
      (injectComments ids (tree.filter (fun f => isYamlName f.1))).2 ∧
    discoverComments tree =
      discoverComments (tree.filter (fun f => isYamlName f.1)) := by
  refine ⟨(injectTreeAux_nonyaml_frame ids tree 0).1,
    (injectTreeAux_nonyaml_frame ids tree 0).2, ?_, discoverComments_filter tree⟩
  show (injectTreeAux ids 0 tree).2.1 = _
  exact (injectTreeAux_filter_regs ids tree 0).1

/-! ## Recursion rules (claim C9) -/

theorem eventKey_runRulePair (conftest : Str → List (Str × Str) → Bool)
    (d : Str) (i : Nat) (r : RecFn × Options) :
    eventKey (runRulePair conftest d i r) = (d, i) := by
  cases hr : r.1 d with
  | error msg => simp [runRulePair, hr, eventKey]
  | ok fs =>
    by_cases h : fs.isEmpty <;> simp [runRulePair, hr, h, eventKey]

theorem enumRules_length (rules : List (RecFn × Options)) :
    ∀ c, (enumRules c rules).length = rules.length := by
  induction rules with
  | nil => intro c; rfl
  | cons r rest ih => intro c; rw [enumRules, List.length_cons, ih, List.length_cons]

theorem enumRules_fst_ge (rules : List (RecFn × Options)) :
    ∀ c ir, ir ∈ enumRules c rules → c ≤ ir.1 := by
  induction rules with
  | nil => intro c ir h; exact absurd h (List.not_mem_nil ir)
  | cons r rest ih =>
    intro c ir h
    rcases List.mem_cons.mp h with rfl | h2
    · exact le_refl c
    · exact le_trans (Nat.le_succ c) (ih (c + 1) ir h2)

theorem enumRules_filter_idx (rules : List (RecFn × Options)) :
    ∀ c i r, rules[i]? = some r →
      (enumRules c rules).filter (fun ir => ir.1 = c + i) = [(c + i, r)] := by
  induction rules with
  | nil => intro c i r h; simp at h
  | cons r0 rest ih =>
    intro c i r h
    rw [enumRules, List.filter_cons]
    cases i with
    | zero =>
      rw [List.getElem?_cons_zero, Option.some_inj] at h
      subst h
      rw [if_pos (by simp)]
      rw [Nat.add_zero]
      congr 1
      rw [List.filter_eq_nil_iff]
      intro ir hir
      have := enumRules_fst_ge rest (c + 1) ir hir
      simp only [decide_eq_true_eq]
      omega
    | succ m =>
      rw [List.getElem?_cons_succ] at h
      rw [if_neg (by simp only [decide_eq_true_eq]; omega)]
      have := ih (c + 1) m r h
      rw [show c + (m + 1) = (c + 1) + m from by omega]
      rw [← this]

theorem walkRecursions_key_dir (conftest : Str → List (Str × Str) → Bool)
    (rules : List (RecFn × Options)) :
    ∀ dirs e, e ∈ walkRecursions conftest rules dirs →
      (eventKey e).1 ∈ dirs := by
  intro dirs
  induction dirs with
  | nil => intro e h; exact absurd h (List.not_mem_nil e)
  | cons d0 rest ih =>
    intro e h
    rw [walkRecursions] at h
    rcases List.mem_append.mp h with h | h
    · obtain ⟨ir, -, rfl⟩ := List.mem_map.mp h
      rw [eventKey_runRulePair]
      exact List.mem_cons_self _ _
    · exact List.mem_cons_of_mem _ (ih e h)

theorem walkRecursions_length (conftest : Str → List (Str × Str) → Bool)
    (rules : List (RecFn × Options)) :
    ∀ dirs, (walkRecursions conftest rules dirs).length =
      dirs.length * rules.length := by
  intro dirs
  induction dirs with
  | nil => simp [walkRecursions]
  | cons d0 rest ih =>
    rw [walkRecursions, List.length_append, List.length_map,
      enumRules_length rules 0, ih, List.length_cons]
    ring

theorem walkRecursions_pair_events (conftest : Str → List (Str × Str) → Bool)
    (rules : List (RecFn × Options)) :
    ∀ dirs, dirs.Nodup → ∀ d ∈ dirs, ∀ i r, rules[i]? = some r →
      (walkRecursions conftest rules dirs).filter
        (fun e => eventKey e = (d, i)) = [runRulePair conftest d i r] := by
  intro dirs
  induction dirs with
  | nil => intro _ d hd; exact absurd hd (List.not_mem_nil d)
  | cons d0 rest ih =>
    intro hnd d hd i r hr
    rw [List.nodup_cons] at hnd
    rw [walkRecursions, List.filter_append]
    rcases List.mem_cons.mp hd with rfl | hd2
    · have hblock : ((enumRules 0 rules).map
          (fun ir => runRulePair conftest d ir.1 ir.2)).filter
          (fun e => eventKey e = (d, i)) = [runRulePair conftest d i r] := by
        rw [List.filter_map]
        have hcomp : ((fun e => decide (eventKey e = (d, i))) ∘
            (fun ir => runRulePair conftest d ir.1 ir.2)) =
            fun ir : Nat × (RecFn × Options) => decide (ir.1 = i) := by
          funext ir
          show decide (eventKey (runRulePair conftest d ir.1 ir.2) = (d, i)) = _
          rw [eventKey_runRulePair]
          rcases eq_or_ne ir.1 i with h | h <;> simp [h]
        rw [hcomp]
        have := enumRules_filter_idx rules 0 i r hr
        rw [Nat.zero_add] at this
        rw [this, List.map_cons, List.map_nil]
      have hrest : (walkRecursions conftest rules rest).filter
          (fun e => eventKey e = (d, i)) = [] := by
        rw [List.filter_eq_nil_iff]
        intro e he
        have := walkRecursions_key_dir conftest rules rest e he
        simp only [decide_eq_true_eq]
        intro hk
        rw [hk] at this
        exact hnd.1 this
      rw [hblock, hrest, List.append_nil]
    · have hblock : ((enumRules 0 rules).map
          (fun ir => runRulePair conftest d0 ir.1 ir.2)).filter
          (fun e => eventKey e = (d, i)) = [] := by
        rw [List.filter_eq_nil_iff]
        intro e he
        obtain ⟨ir, -, rfl⟩ := List.mem_map.mp he
        rw [eventKey_runRulePair]
        simp only [decide_eq_true_eq]
        intro hk
        have : d0 = d := congrArg Prod.fst hk
        exact hnd.1 (this ▸ hd2)
      rw [hblock, List.nil_append]
      exact ih hnd.2 d hd2 i r hr

/-- C9 (amended): every (rendered directory, recursion rule) pair is an
independent unit — the walk produces exactly one event per pair
regardless of other pairs' outcomes; a rule whose extraction writes no
files is a no-op success with no nested policy invocation; a rule whose
extraction writes at least one file produces exactly one nested policy
invocation, run with that rule's independently-finalized policies
directory — which, absent an explicit WithPoliciesDir on the rule,
defaults to the top-level policies directory captured at registration
time (the original claim's "never the top-level policy directory unless
explicitly configured equal" does not hold, see the counterexample). -/
theorem walkRecursions_spec (conftest : Str → List (Str × Str) → Bool)
    (rules : List (RecFn × Options)) (dirs : List Str) (hnd : dirs.Nodup)
    (d : Str) (hd : d ∈ dirs) (i : Nat) (r : RecFn × Options)
    (hr : rules[i]? = some r) :
    (walkRecursions conftest rules dirs).length =
      dirs.length * rules.length ∧
    (walkRecursions conftest rules dirs).filter
      (fun e => eventKey e = (d, i)) = [runRulePair conftest d i r] ∧
    (r.1 d = Except.ok [] → runRulePair conftest d i r = RecEvent.noop d i) ∧
    (∀ fs, r.1 d = Except.ok fs → fs ≠ [] →
      runRulePair conftest d i r =
        RecEvent.policyRun d i r.2.policiesDir (conftest r.2.policiesDir fs)) := by
  refine ⟨walkRecursions_length conftest rules dirs,
    walkRecursions_pair_events conftest rules dirs hnd d hd i r hr, ?_, ?_⟩
  · intro h
    rw [runRulePair, h]
    rfl
  · intro fs h hne
    rw [runRulePair, h]
    simp only [List.isEmpty_iff, hne, if_false]

/-- Witness for the amended C9 at a one-rule, one-directory setup whose
extraction writes one file. -/
theorem walkRecursions_spec_witness :
    (walkRecursions (fun _ _ => true)
        [(fun _ => Except.ok [("k.yaml".toList, "v: 1".toList)],
          emptyOptions.setPoliciesDir "/p".toList)] ["out".toList]).length =
      (["out".toList] : List Str).length *
        ([(fun _ => Except.ok [("k.yaml".toList, "v: 1".toList)],
          emptyOptions.setPoliciesDir "/p".toList)] :
            List (RecFn × Options)).length ∧
    (walkRecursions (fun _ _ => true)
        [(fun _ => Except.ok [("k.yaml".toList, "v: 1".toList)],
          emptyOptions.setPoliciesDir "/p".toList)] ["out".toList]).filter
      (fun e => eventKey e = ("out".toList, 0)) =
      [runRulePair (fun _ _ => true) "out".toList 0
        (fun _ => Except.ok [("k.yaml".toList, "v: 1".toList)],
          emptyOptions.setPoliciesDir "/p".toList)] ∧
    ((fun _ => Except.ok [("k.yaml".toList, "v: 1".toList)] : RecFn)
        "out".toList = Except.ok [] →
      runRulePair (fun _ _ => true) "out".toList 0
        (fun _ => Except.ok [("k.yaml".toList, "v: 1".toList)],
          emptyOptions.setPoliciesDir "/p".toList) =
        RecEvent.noop "out".toList 0) ∧
    (∀ fs, ((fun _ => Except.ok [("k.yaml".toList, "v: 1".toList)] : RecFn)
        "out".toList = Except.ok fs → fs ≠ [] →
      runRulePair (fun _ _ => true) "out".toList 0
        (fun _ => Except.ok [("k.yaml".toList, "v: 1".toList)],
          emptyOptions.setPoliciesDir "/p".toList) =
        RecEvent.policyRun "out".toList 0
          (emptyOptions.setPoliciesDir "/p".toList).policiesDir
          ((fun _ _ => true : Str → List (Str × Str) → Bool)
            (emptyOptions.setPoliciesDir "/p".toList).policiesDir fs))) :=
  walkRecursions_spec (fun _ _ => true)
    [(fun _ => Except.ok [("k.yaml".toList, "v: 1".toList)],
      emptyOptions.setPoliciesDir "/p".toList)] ["out".toList]
    (List.nodup_singleton _) "out".toList (List.mem_singleton.mpr rfl) 0 _ rfl

/-- C9 counterexample: a recursion rule registered with no option of its
own inherits the top-level policies directory — the nested policy pass
runs with the same directory as the top-level pass although it was never
explicitly configured equal. -/
theorem withRecursion_inherits_toplevel_policies :
    (((Options.recursions
        (finalizeOpts "/cwd".toList false 1
          (([withChartDir "/chart".toList, withPoliciesDir "/bad".toList,
             withRecursion "/cwd".toList false 1
               (fun _ => Except.ok [("k.yaml".toList, "v: 1".toList)]) []] :
            List (Options → Options)).foldl (fun o f => f o) emptyOptions))).getD
        0 (fun _ => Except.ok [], emptyOptions)).2).policiesDir =
      (finalizeOpts "/cwd".toList false 1
        (([withChartDir "/chart".toList, withPoliciesDir "/bad".toList,
           withRecursion "/cwd".toList false 1
             (fun _ => Except.ok [("k.yaml".toList, "v: 1".toList)]) []] :
          List (Options → Options)).foldl (fun o f => f o)
          emptyOptions)).policiesDir ∧
    (finalizeOpts "/cwd".toList false 1
      (([withChartDir "/chart".toList, withPoliciesDir "/bad".toList,
         withRecursion "/cwd".toList false 1
           (fun _ => Except.ok [("k.yaml".toList, "v: 1".toList)]) []] :
        List (Options → Options)).foldl (fun o f => f o)
        emptyOptions)).policiesDir = "/bad".toList ∧
    runRulePair (fun _ _ => true) "out".toList 0
      ((Options.recursions
        (finalizeOpts "/cwd".toList false 1
          (([withChartDir "/chart".toList, withPoliciesDir "/bad".toList,
             withRecursion "/cwd".toList false 1
               (fun _ => Except.ok [("k.yaml".toList, "v: 1".toList)]) []] :
            List (Options → Options)).foldl (fun o f => f o) emptyOptions))).getD
        0 (fun _ => Except.ok [], emptyOptions)) =
      RecEvent.policyRun "out".toList 0 "/bad".toList true :=
  ⟨rfl, rfl, rfl⟩

end Helmlint
